import Mathlib

/-!
# Frequency-driven NFA reduction (`reduction.cpp`)

A shallow embedding of `reduction::prune`, `reduction::merge`,
`reduction::read_state_freq` and `reduction::reduce`.

* `State` is `unsigned long`; no arithmetic is done on states, so it is `Nat`.
* `std::map<State, V>` is an association list that is iterated front to back; a
  well-formed map has strictly ascending keys (`StdMap.WF`).
* `std::set<State>` is a list of states, iterated front to back.
* The class `Nfa` is declared in `nfa.hpp`, outside `reduction.cpp`: the results of
  the queries that `prune` and `merge` make on it are the fields of `Nfa`.  The
  results of `split_to_rules`, `state_depth` and `succ` are `std::map`s, as their use
  with `at`, `find` and `operator[]` shows.
* The counter `cnt_merged` (an `int`) is a `Nat`: it grows by one per newly visited
  state, far from the range of `int`.
* C++ exceptions, failed assertions and out-of-bounds vector reads are explicit
  `Failure` values.
* A text file is the list of its lines, a line a list of characters; the stream
  extraction `iss >> x` of an `unsigned long` is `readULong`.
* What `reduce` needs from outside `reduction.cpp` (`merge_states`, `is_state`,
  `build`, the file and the capture) is a `World`.
* `float`/`double` values are `FVal`: exact rationals extended with `+inf` and
  `NaN`, so that a division by zero steers the loops as in the program.  Rounding
  of finite values is not modelled.
-/

namespace Reduction

abbrev State := Nat

/-- The ways a call can end without returning. -/
inductive Failure where
  /-- `assert` at the top of `prune` failed. -/
  | assertion
  /-- `std::out_of_range` thrown by `map::at`. -/
  | outOfRange
  /-- `std::runtime_error` thrown by the verification loop of `merge`. -/
  | runtimeError
  /-- `sorted_states[removed]` read past the end of the vector. -/
  | vectorOverrun
  /-- The iteration bound of the embedding of the `while` loop in `merge` was used up. -/
  | outOfFuel
  /-- `std::runtime_error("error loading NFA")`: the frequency file cannot be opened. -/
  | cannotOpenFile
  /-- `std::runtime_error("invalid state labels syntax")`. -/
  | invalidSyntax
  /-- `std::runtime_error("invalid NFA state: ...")`. -/
  | invalidState (s : Nat)
  /-- `std::ios_base::failure`: the capture cannot be opened. -/
  | cannotOpenPcap
  deriving DecidableEq, Repr

/-! ## `std::map` -/

abbrev StdMap (V : Type) := List (State × V)

namespace StdMap

variable {V : Type}

/-- The keys, in iteration order. -/
def keys (m : StdMap V) : List State := m.map Prod.fst

/-- Keys strictly ascending: what every `std::map` satisfies. -/
def WF (m : StdMap V) : Prop := (keys m).Pairwise (· < ·)

instance (m : StdMap V) : Decidable (WF m) := by unfold WF; infer_instance

/-- The function `map::find`, as an option. -/
def find (m : StdMap V) (k : State) : Option V :=
  match m with
  | [] => none
  | (k', v) :: rest => if k' = k then some v else find rest k

/-- The function `map::at`: throws `std::out_of_range` on a missing key. -/
def at_ (m : StdMap V) (k : State) : Except Failure V :=
  match find m k with
  | some v => .ok v
  | none => .error .outOfRange

/-- The value read by `m[k]`: a missing key is inserted with the default value. -/
def index (dflt : V) (m : StdMap V) (k : State) : V :=
  match find m k with
  | some v => v
  | none => dflt

/-- The assignment `m[k] = v`. -/
def insert (m : StdMap V) (k : State) (v : V) : StdMap V :=
  match m with
  | [] => [(k, v)]
  | (k', v') :: rest =>
    if k < k' then (k, v) :: (k', v') :: rest
    else if k = k' then (k, v) :: rest
    else (k', v') :: insert rest k v

end StdMap

/-! ## Floating-point values -/

/-- A non-negative `float`/`double`: exact value, `+inf`, or `NaN`. -/
inductive FVal where
  | num (q : ℚ)
  | inf
  | nan
  deriving DecidableEq

namespace FVal

/-- Addition of floating-point values (`error += ...`). -/
def add : FVal → FVal → FVal
  | num a, num b => num (a + b)
  | nan, _ => nan
  | _, nan => nan
  | _, _ => inf

/-- The quotient `(1.0 * a) / b` of two unsigned integers. -/
def div (a b : Nat) : FVal :=
  if b = 0 then (if a = 0 then nan else inf) else num ((a : ℚ) / (b : ℚ))

/-- The comparison `x < c` against a finite constant: false on `NaN`. -/
def lt (x : FVal) (c : ℚ) : Bool :=
  match x with
  | num q => decide (q < c)
  | inf => false
  | nan => false

/-- The comparison `x <= c` against a finite constant: false on `NaN`. -/
def le (x : FVal) (c : ℚ) : Bool :=
  match x with
  | num q => decide (q ≤ c)
  | inf => false
  | nan => false

/-- The comparison `x <= y` of two values: false as soon as one is `NaN`. -/
def leF : FVal → FVal → Bool
  | num a, num b => decide (a ≤ b)
  | num _, inf => true
  | inf, inf => true
  | _, _ => false

/-- The comparison `x < y` of two values: false as soon as one is `NaN`. -/
def ltF : FVal → FVal → Bool
  | num a, num b => decide (a < b)
  | num _, inf => true
  | _, _ => false

end FVal

/-! ## The automaton -/

/-- What `prune` and `merge` ask of an `Nfa`. -/
structure Nfa where
  /-- `get_initial_state()` -/
  initial_state : State
  /-- The set tested by `is_final(s)` -/
  final_states : List State
  /-- `state_count()` -/
  state_count : Nat
  /-- `split_to_rules()` -/
  rules : StdMap State
  /-- `state_depth()` -/
  depth : StdMap Nat
  /-- `succ()` -/
  suc : StdMap (List State)

/-- The predicate `nfa.is_final(s)`. -/
def Nfa.is_final (nfa : Nfa) (s : State) : Bool := decide (s ∈ nfa.final_states)

/-! ## `prune` -/

/-- The first loop of `prune` (lines 103-110): collects the candidate states and
the maximal frequency. -/
def scanFreq (nfa : Nfa) (init : State) :
    StdMap Nat → List State × Nat → List State × Nat
  | [], acc => acc
  | (s, f) :: rest, (sorted_states, total) =>
    scanFreq nfa init rest
      (if !nfa.is_final s && s != init then sorted_states ++ [s] else sorted_states,
       if total < f then f else total)

/-- The comparator handed to `std::sort` (lines 117-122). -/
def cmpStates (state_freq : StdMap Nat) (depth : StdMap Nat) (x y : State) :
    Except Failure Bool := do
  let fx ← StdMap.at_ state_freq x
  let fy ← StdMap.at_ state_freq y
  if fx = fy then do
    let dx ← StdMap.at_ depth x
    let dy ← StdMap.at_ depth y
    pure (decide (dx > dy))
  else
    pure (decide (fx < fy))

/-- Insertion of one element into a sorted list with a comparator that may throw. -/
def insertSorted (cmp : State → State → Except Failure Bool) (x : State) :
    List State → Except Failure (List State)
  | [] => pure [x]
  | y :: ys => do
    if (← cmp x y) then pure (x :: y :: ys)
    else do
      let r ← insertSorted cmp x ys
      pure (y :: r)

/-- The call `std::sort(first, last, cmp)`, run as an insertion sort.  The order of
equivalent elements, which `std::sort` leaves open, is the one this run gives. -/
def sortStates (cmp : State → State → Except Failure Bool) :
    List State → Except Failure (List State)
  | [] => pure []
  | x :: xs => do
    let r ← sortStates cmp xs
    insertSorted cmp x r

/-- What a run of `prune` leaves behind: the returned error, the counter `removed`
and the merge map handed to `nfa.merge_states`. -/
structure PruneResult where
  error : FVal
  removed : Nat
  merge_map : StdMap State
  deriving DecidableEq

/-- One pass through the body shared by both removal loops (lines 135-138 and
145-148). -/
def removeState (state_freq : StdMap Nat) (rule_map : StdMap State) (total : Nat)
    (state : State) (acc : PruneResult) : Except Failure PruneResult := do
  let f ← StdMap.at_ state_freq state
  pure { error := FVal.add acc.error (FVal.div f total),
         removed := acc.removed + 1,
         merge_map := StdMap.insert acc.merge_map state (StdMap.index 0 rule_map state) }

/-- The loop of automatic mode (lines 133-139), started with the part of
`sorted_states` from index `removed` on. -/
def autoWalk (state_freq : StdMap Nat) (rule_map : StdMap State) (total : Nat) :
    List State → PruneResult → Except Failure PruneResult
  | [], acc =>
    if FVal.lt acc.error (1 / 1000) then .error .vectorOverrun else .ok acc
  | state :: rest, acc =>
    if FVal.lt acc.error (1 / 1000) then do
      let acc' ← removeState state_freq rule_map total state acc
      autoWalk state_freq rule_map total rest acc'
    else .ok acc

/-- The loop of fixed-ratio mode (lines 143-149), started with the part of
`sorted_states` from index `removed` on. -/
def fixedWalk (state_freq : StdMap Nat) (rule_map : StdMap State) (total : Nat)
    (to_remove : Nat) : List State → PruneResult → Except Failure PruneResult
  | [], acc => .ok acc
  | state :: rest, acc =>
    if acc.removed < to_remove then do
      let acc' ← removeState state_freq rule_map total state acc
      fixedWalk state_freq rule_map total to_remove rest acc'
    else .ok acc

/-- The value of `size_t to_remove = (1 - pct) * state_count`. -/
def toRemove (pct : ℚ) (state_count : Nat) : Nat :=
  Int.toNat (Rat.floor ((1 - pct) * (state_count : ℚ)))

/-- The function `prune(nfa, state_freq, pct)`. -/
def prune (nfa : Nfa) (state_freq : StdMap Nat) (pct : ℚ) : Except Failure PruneResult :=
  if ¬ ((0 < pct ∧ pct ≤ 1) ∨ pct = -1) then .error .assertion
  else
    let rule_map := nfa.rules
    let depth := nfa.depth
    let init := nfa.initial_state
    let scanned := scanFreq nfa init state_freq ([], 0)
    let total := scanned.2
    match sortStates (cmpStates state_freq depth) scanned.1 with
    | .error e => .error e
    | .ok sorted_states =>
      let start : PruneResult := { error := FVal.num 0, removed := 0, merge_map := [] }
      let state_count := nfa.state_count
      let to_remove := toRemove pct state_count
      if pct = -1 then
        autoWalk state_freq rule_map total sorted_states start
      else
        fixedWalk state_freq rule_map total to_remove sorted_states start

/-! ## `merge` -/

/-- The call `s.insert(x)` on a `std::set<State>`. -/
def setInsert (s : List State) (x : State) : List State :=
  match s with
  | [] => [x]
  | y :: ys =>
    if x < y then x :: y :: ys
    else if x = y then y :: ys
    else y :: setInsert ys x

/-- The call `s.erase(x)` on a `std::set<State>`. -/
def setErase (s : List State) (x : State) : List State :=
  s.filter (fun y => y != x)

/-- The variables of `merge` that its loops change. -/
structure MergeState where
  mapping : StdMap State
  cnt_merged : Nat
  visited : List State
  next : List State
  deriving DecidableEq

/-- The body of the loop over `suc[state]` (lines 192-219). -/
def visitSucc (nfa : Nfa) (state_freq : StdMap Nat) (threshold : ℚ)
    (suc : StdMap (List State)) (state : State) (freq : Nat)
    (st : MergeState) (next_state : State) : Except Failure MergeState :=
  if next_state ∈ st.visited then .ok st
  else do
    let cond := (StdMap.index [] suc next_state).all (fun x => !nfa.is_final x)
    let f ← StdMap.at_ state_freq next_state
    let diff : ℚ := (f : ℚ) / (freq : ℚ)
    let st1 : MergeState :=
      if cond && decide (diff ≥ threshold) then
        { st with
          cnt_merged := st.cnt_merged + 1,
          mapping :=
            match StdMap.find st.mapping state with
            | some target => StdMap.insert st.mapping next_state target
            | none => StdMap.insert st.mapping next_state state }
      else st
    pure { st1 with
      next := setInsert st1.next next_state,
      visited := setInsert st1.visited next_state }

/-- The body of the loop over `actual` (lines 185-220). -/
def visitState (nfa : Nfa) (state_freq : StdMap Nat) (threshold : ℚ)
    (suc : StdMap (List State)) (st : MergeState) (state : State) :
    Except Failure MergeState := do
  let freq ← StdMap.at_ state_freq state
  if freq = 0 then pure st
  else
    (StdMap.index [] suc state).foldlM (visitSucc nfa state_freq threshold suc state freq) st

/-- The loop `while (!actual.empty())` (lines 180-223), with a bound on the number of
rounds. -/
def mergeLoop (nfa : Nfa) (state_freq : StdMap Nat) (threshold : ℚ)
    (suc : StdMap (List State)) : Nat → List State → MergeState → Except Failure MergeState
  | _, [], st => .ok st
  | 0, _ :: _, _ => .error .outOfFuel
  | fuel + 1, a :: as, st => do
    let st' ← (a :: as).foldlM (visitState nfa state_freq threshold suc)
      { st with next := [] }
    mergeLoop nfa state_freq threshold suc fuel st'.next st'

/-- All states that occur in a successor set. -/
def sucStates (suc : StdMap (List State)) : List State :=
  suc.flatMap Prod.snd

/-- What a run of `merge` leaves behind: the returned counter and the map handed to
`nfa.merge_states` (which is called when the map is not empty). -/
structure MergeResult where
  cnt_merged : Nat
  mapping : StdMap State
  deriving DecidableEq

/-- The function `merge(nfa, state_freq, threshold)`.  Every round of the loop but
the last visits a new state of `sucStates`, which bounds the number of rounds. -/
def merge (nfa : Nfa) (state_freq : StdMap Nat) (threshold : ℚ) :
    Except Failure MergeResult :=
  let suc := nfa.suc
  let to_merge : List State := []
  let init := nfa.initial_state
  let actual := setErase (StdMap.index [] suc init) init
  let visited := setInsert (StdMap.index [] suc init) init
  match mergeLoop nfa state_freq threshold suc ((sucStates suc).length + 1) actual
      { mapping := [], cnt_merged := 0, visited := visited, next := [] } with
  | .error e => .error e
  | .ok st =>
    if to_merge.any (fun i => (StdMap.find st.mapping i).isSome) then .error .runtimeError
    else .ok { cnt_merged := st.cnt_merged, mapping := st.mapping }

/-! ## `read_state_freq` -/

/-- The whitespace skipped by `operator>>` (`std::isspace` in the "C" locale). -/
def isSpace (c : Char) : Bool :=
  c == ' ' || c == '\t' || c == '\n' || c == Char.ofNat 11 || c == Char.ofNat 12 ||
    c == '\r'

/-- The value of a string of decimal digits. -/
def digitsVal (ds : List Char) : Nat :=
  ds.foldl (fun v c => 10 * v + (c.toNat - 48)) 0

/-- The extraction `iss >> x` of an `unsigned long`: whitespace is skipped, a sign is
accepted, at least one digit is required and the digits must not overflow; after a
minus sign the value is negated in `unsigned long`.  Returns the value and the rest of
the stream, or nothing when the stream fails. -/
def readULong (s : List Char) : Option (Nat × List Char) :=
  let s1 := s.dropWhile isSpace
  let neg := decide (s1.head? = some '-')
  let s2 := if neg || decide (s1.head? = some '+') then s1.tail else s1
  let ds := s2.takeWhile Char.isDigit
  let rest := s2.dropWhile Char.isDigit
  if ds = [] then none
  else if digitsVal ds ≥ 2 ^ 64 then none
  else some (if neg then (2 ^ 64 - digitsVal ds) % 2 ^ 64 else digitsVal ds, rest)

/-- The statement `buf = buf.substr(0, buf.find("#"))`. -/
def stripComment (buf : List Char) : List Char :=
  buf.takeWhile (fun c => c != '#')

/-- The test `iss >> s >> l` on a line. -/
def parseLine (buf : List Char) : Option (State × Nat) :=
  match readULong buf with
  | none => none
  | some (s, rest) =>
    match readULong rest with
    | none => none
    | some (l, _) => some (s, l)

/-- The loop `while (getline(in, buf))` of `read_state_freq` (lines 29-45) over the
lines still to be read. -/
def readLines (is_state : State → Bool) :
    List (List Char) → StdMap Nat → Except Failure (StdMap Nat)
  | [], ret => .ok ret
  | line :: rest, ret =>
    let buf := stripComment line
    if buf = [] then readLines is_state rest ret
    else
      match parseLine buf with
      | none => .error .invalidSyntax
      | some (s, l) =>
        if !is_state s then .error (.invalidState s)
        else readLines is_state rest (StdMap.insert ret s l)

/-- The function `read_state_freq(nfa, fname)`.  The file is given by its lines, or by
nothing when it cannot be opened; `is_state` is `nfa.is_state`. -/
def read_state_freq (is_state : State → Bool) (file : Option (List (List Char))) :
    Except Failure (StdMap Nat) :=
  match file with
  | none => .error .cannotOpenFile
  | some lines => readLines is_state lines []

/-- The digits written by `out << n` for an `unsigned long`, most significant first,
appended to `acc`. -/
def decimalAux : Nat → Nat → List Char → List Char
  | 0, _, acc => acc
  | fuel + 1, n, acc =>
    if n < 10 then Nat.digitChar n :: acc
    else decimalAux fuel (n / 10) (Nat.digitChar (n % 10) :: acc)

/-- The text written by `out << n` for an `unsigned long`. -/
def decimal (n : Nat) : List Char := decimalAux (n + 1) n []

/-- The lines written by the loop of `main` (reduce.cpp, lines 119-122):
`out << i.first << " " << i.second << endl`. -/
def writeFreq (freq : StdMap Nat) : List (List Char) :=
  freq.map (fun i => decimal i.1 ++ ' ' :: decimal i.2)

/-! ## `reduce` -/

/-- What `reduce` uses from outside `reduction.cpp`: the automaton's own operations,
the file `samples` and the capture behind it. -/
structure World where
  /-- `Nfa::merge_states`: the automaton after the map has been applied. -/
  merge_states : Nfa → StdMap State → Nfa
  /-- `Nfa::is_state`. -/
  is_state : Nfa → State → Bool
  /-- `FastNfa::build`: the automaton after the rebuild. -/
  build : Nfa → Nfa
  /-- The lines of `samples` read as a frequency file, or nothing when it cannot be
  opened. -/
  file : Option (List (List Char))
  /-- Whether `pcap_open_offline(samples)` succeeds. -/
  pcap_opens : Bool
  /-- The number of payloads that `process_payload` finds in `samples`. -/
  payloads : Nat
  /-- What `compute_freq(nfa, pcap, count)` returns over the whole capture. -/
  freq_all : Nfa → StdMap Nat
  /-- What `compute_freq(nfa, pcap, count)` returns in round `i` of the loop, over the
  next `count` payloads. -/
  freq_chunk : Nfa → Nat → Nat → StdMap Nat

/-- The function `compute_freq(nfa, fname, count)` (lines 74-83) on `samples`. -/
def compute_freq (w : World) (nfa : Nfa) : Except Failure (StdMap Nat) :=
  if w.pcap_opens then .ok (w.freq_all nfa) else .error .cannotOpenPcap

/-- The call `merge(nfa, state_freq, th)` as its caller sees it: the automaton
afterwards (`merge_states` is called when the map is not empty) and the count. -/
def mergeCall (w : World) (nfa : Nfa) (state_freq : StdMap Nat) (th : ℚ) :
    Except Failure (Nfa × Nat) :=
  match merge nfa state_freq th with
  | .error e => .error e
  | .ok r =>
    .ok (if r.mapping = [] then nfa else w.merge_states nfa r.mapping, r.cnt_merged)

/-- The ratio after `pct -= pct - old_cnt * pct / new_cnt` (line 315).  With
`new_cnt = 0` the quotient is infinite, or `NaN` when the numerator is 0 too. -/
def rescale (pct : ℚ) (old_cnt new_cnt : Nat) : FVal :=
  if new_cnt = 0 then (if (old_cnt : ℚ) * pct = 0 then .nan else .inf)
  else .num (pct - (pct - (old_cnt : ℚ) * pct / (new_cnt : ℚ)))

/-- The call `prune(nfa, freq, pct)` with a floating-point ratio: an infinite ratio
and `NaN` fail the assertion at the top of `prune`. -/
def pruneF (nfa : Nfa) (freq : StdMap Nat) (pct : FVal) : Except Failure PruneResult :=
  match pct with
  | .num q => prune nfa freq q
  | _ => .error .assertion

/-- The loop of lines 319-326: the entries of `state_freq` whose key is a state. -/
def filterStates (is_state : State → Bool) (state_freq : StdMap Nat) : StdMap Nat :=
  state_freq.foldl (fun freq i => if is_state i.1 then StdMap.insert freq i.1 i.2 else freq) []

/-- What a run of `reduce` leaves behind: the returned pair and the automaton. -/
structure ReduceResult where
  error : FVal
  merged : Nat
  nfa : Nfa

/-- The end of `reduce` (lines 310-329): rescaling, filtering and the final `prune`. -/
def reduceTail (w : World) (nfa : Nfa) (old_cnt : Nat) (state_freq : StdMap Nat)
    (pct : ℚ) (merged : Nat) : Except Failure ReduceResult :=
  let new_cnt := nfa.state_count
  if pct ≠ -1 ∧ old_cnt < new_cnt then .error .assertion
  else
    let pct' : FVal := if pct ≠ -1 then rescale pct old_cnt new_cnt else .num pct
    let freq := filterStates (w.is_state nfa) state_freq
    match pruneF nfa freq pct' with
    | .error e => .error e
    | .ok r => .ok { error := r.error, merged := merged, nfa := w.merge_states nfa r.merge_map }

/-- The loop `while (iterations-- > 0)` (lines 290-308): rounds left, round number,
automaton, last frequencies, merged count. -/
def mergeRounds (w : World) (th : ℚ) (count : Nat) :
    Nat → Nat → Nfa → StdMap Nat → Nat → Except Failure (Nfa × StdMap Nat × Nat)
  | 0, _, nfa, state_freq, merged => .ok (nfa, state_freq, merged)
  | k + 1, i, nfa, _, merged =>
    let state_freq := w.freq_chunk nfa i count
    match mergeCall w nfa state_freq th with
    | .error e => .error e
    | .ok (nfa1, m) => mergeRounds w th count k (i + 1) (w.build nfa1) state_freq (merged + m)

/-- The function `reduce(nfa, samples, pct, th, iterations, pre)`. -/
def reduce (w : World) (nfa : Nfa) (pct th : ℚ) (iterations : Nat) (pre : Bool) :
    Except Failure ReduceResult :=
  let old_cnt := nfa.state_count
  if pre || decide (iterations < 2) then
    match (if pre then read_state_freq (w.is_state nfa) w.file else compute_freq w nfa) with
    | .error e => .error e
    | .ok state_freq =>
      if iterations > 0 then
        match mergeCall w nfa state_freq th with
        | .error e => .error e
        | .ok (nfa1, merged) => reduceTail w nfa1 old_cnt state_freq pct merged
      else reduceTail w nfa old_cnt state_freq pct 0
  else
    if !w.pcap_opens then .error .cannotOpenPcap
    else
      let count := w.payloads / iterations
      match mergeRounds w th count iterations 0 nfa [] 0 with
      | .error e => .error e
      | .ok (nfa1, state_freq, merged) => reduceTail w nfa1 old_cnt state_freq pct merged

/-! ## Notions used in the statements and proofs -/

/-- The candidate states: the keys of `state_freq` that are neither final nor initial.
The first loop of `prune` leaves them in `sorted_states` (`scanFreq_start`). -/
def candidates (nfa : Nfa) (state_freq : StdMap Nat) : List State :=
  (StdMap.keys state_freq).filter (fun s => !nfa.is_final s && s != nfa.initial_state)

/-- The largest frequency of any key.  The first loop of `prune` leaves it in `total`
(`scanFreq_start`). -/
def totalMax (state_freq : StdMap Nat) : Nat :=
  (state_freq.map Prod.snd).foldl max 0

/-- The strict order the comparator decides: smaller frequency first, and among
equal frequencies greater depth first. -/
def before (state_freq : StdMap Nat) (depth : StdMap Nat) (x y : State) : Prop :=
  StdMap.index 0 state_freq x < StdMap.index 0 state_freq y ∨
    (StdMap.index 0 state_freq x = StdMap.index 0 state_freq y ∧
      StdMap.index 0 depth x > StdMap.index 0 depth y)

instance (sf d : StdMap Nat) (x y : State) : Decidable (before sf d x y) := by
  unfold before; infer_instance

/-- The list is in the order of the comparator: no later element goes before an
earlier one. -/
def SortedBy (sf d : StdMap Nat) (l : List State) : Prop :=
  l.Pairwise (fun a b => ¬ before sf d b a)

/-- The loop body on a state that has a frequency. -/
def recordState (sf : StdMap Nat) (rm : StdMap State) (total : Nat)
    (acc : PruneResult) (state : State) : PruneResult :=
  { error := FVal.add acc.error (FVal.div (StdMap.index 0 sf state) total),
    removed := acc.removed + 1,
    merge_map := StdMap.insert acc.merge_map state (StdMap.index 0 rm state) }

/-- The loop body run over a list of states, front to back. -/
def recordAll (sf : StdMap Nat) (rm : StdMap State) (total : Nat)
    (l : List State) (acc : PruneResult) : PruneResult :=
  l.foldl (recordState sf rm total) acc

/-- The running error after the loop body has been run over a list of states. -/
def errorSum (sf : StdMap Nat) (total : Nat) (l : List State) (e0 : FVal) : FVal :=
  l.foldl (fun e s => FVal.add e (FVal.div (StdMap.index 0 sf s) total)) e0

/-- The state of both loops on entry. -/
def pruneStart : PruneResult := { error := FVal.num 0, removed := 0, merge_map := [] }

/-- What holds of the variables of `merge` throughout its run. -/
structure MergeInv (nfa : Nfa) (st : MergeState) : Prop where
  init_visited : nfa.initial_state ∈ st.visited
  next_visited : ∀ s ∈ st.next, s ∈ st.visited
  entries : ∀ k t, StdMap.find st.mapping k = some t →
    k ∈ st.visited ∧ t ∈ st.visited ∧ StdMap.find st.mapping t = none ∧
      k ≠ nfa.initial_state ∧
      ∀ x ∈ StdMap.index [] nfa.suc k, nfa.is_final x = false

/-- The number of states of successor sets that are not visited yet. -/
def unvisited (U V : List State) : Nat :=
  ((U.toFinset).filter (fun x => x ∉ V)).card

/-- The only failure inside the loops: a state of a successor set has no frequency. -/
def MissingFreq (nfa : Nfa) (sf : StdMap Nat) (e : Failure) : Prop :=
  e = .outOfRange ∧ ∃ s ∈ sucStates nfa.suc, s ∉ StdMap.keys sf

/-- What a round of the loop keeps: the states put into `next` are states of successor
sets that were not visited when the round began, and nothing visited is forgotten. -/
def RoundInv (nfa : Nfa) (V0 : List State) (st : MergeState) : Prop :=
  (∀ x ∈ st.next, x ∈ sucStates nfa.suc ∧ x ∉ V0 ∧ x ∈ st.visited) ∧
    ∀ v ∈ V0, v ∈ st.visited

/-- Two runs end alike: both fail with the same failure, or both return and the
results are related. -/
def OutcomeRel {σ : Type} (R : σ → σ → Prop) :
    Except Failure σ → Except Failure σ → Prop
  | .ok a, .ok b => R a b
  | .error e₁, .error e₂ => e₁ = e₂
  | _, _ => False

/-- The variables of a run of `merge` with a lower threshold (left) and of a run with
a higher threshold (right): the traversal is the same, and the right run has recorded
no source that the left run has not. -/
def LowerThreshold (st₁ st₂ : MergeState) : Prop :=
  st₁.visited = st₂.visited ∧ st₁.next = st₂.next ∧
    (∀ k ∈ StdMap.keys st₂.mapping, k ∈ StdMap.keys st₁.mapping) ∧
    st₂.cnt_merged ≤ st₁.cnt_merged

/-- The entry that a line of the frequency file stands for: none for a line that is
empty once its comment is stripped, and none for a line that does not parse. -/
def entryOf (line : List Char) : Option (State × Nat) :=
  if stripComment line = [] then none else parseLine (stripComment line)

/-- The entries of the lines of a frequency file, in the order of the file. -/
def entries (lines : List (List Char)) : List (State × Nat) :=
  lines.filterMap entryOf

/-- A line on which `read_state_freq` throws: it is not empty after comment stripping,
and it does not parse as `<state> <count>` or names a state that is not a state of the
automaton. -/
def BadLine (is_state : State → Bool) (line : List Char) : Prop :=
  stripComment line ≠ [] ∧
    (parseLine (stripComment line) = none ∨
      ∃ s l, parseLine (stripComment line) = some (s, l) ∧ is_state s = false)

/-- The map after the assignments `ret[s] = l` for a list of entries. -/
def insertAll (ret : StdMap Nat) (es : List (State × Nat)) : StdMap Nat :=
  es.foldl (fun m e => StdMap.insert m e.1 e.2) ret

/-! ## Concrete automata -/

/-- The automaton of the scenario after merging: states 0, 4 and 5. -/
def scenarioPruneNfa : Nfa :=
  { initial_state := 0, final_states := [5], state_count := 3,
    rules := [(0, 5), (4, 5), (5, 5)], depth := [(0, 0), (4, 1), (5, 2)],
    suc := [(0, [4]), (4, [5])] }

/-- Its frequencies. -/
def scenarioPruneFreq : StdMap Nat := [(0, 100), (4, 1), (5, 0)]

/-- A four-state automaton: initial state 0, final state 3. -/
def smallNfa : Nfa :=
  { initial_state := 0, final_states := [3], state_count := 4,
    rules := [(0, 3), (1, 3), (2, 3), (3, 3)],
    depth := [(0, 0), (1, 1), (2, 2), (3, 3)],
    suc := [(0, [1]), (1, [2]), (2, [3])] }

/-- Equal frequencies for all four states. -/
def flatFreq : StdMap Nat := [(0, 5), (1, 5), (2, 5), (3, 5)]

/-- Frequencies for the four-state automaton with a rarely visited state 2. -/
def skewFreq : StdMap Nat := [(0, 10), (1, 8), (2, 1), (3, 4)]

/-- The automaton of the scenario: the chain 0 -> 1 -> 2 -> 3 -> 4 -> 5 with initial
state 0 and final state 5. -/
def chainNfa : Nfa :=
  { initial_state := 0, final_states := [5], state_count := 6,
    rules := [(0, 5), (1, 5), (2, 5), (3, 5), (4, 5), (5, 5)],
    depth := [(0, 0), (1, 1), (2, 2), (3, 3), (4, 4), (5, 5)],
    suc := [(0, [1]), (1, [2]), (2, [3]), (3, [4]), (4, [5])] }

/-- The frequencies of the scenario. -/
def chainFreq : StdMap Nat := [(0, 100), (1, 100), (2, 98), (3, 97), (4, 1), (5, 0)]

/-- The chain 0 -> 1 -> 2 with initial state 0 and final state 2, which has no
successor. -/
def shortNfa : Nfa :=
  { initial_state := 0, final_states := [2], state_count := 3,
    rules := [(0, 2), (1, 2), (2, 2)], depth := [(0, 0), (1, 1), (2, 2)],
    suc := [(0, [1]), (1, [2])] }

/-- Every packet reaches every state. -/
def shortFreq : StdMap Nat := [(0, 10), (1, 10), (2, 10)]

/-- Frequencies for the four-state automaton with a stale key: state 7 is not a state
of the automaton (it has no rule and no depth). -/
def staleFreq : StdMap Nat := [(0, 10), (1, 8), (2, 4), (7, 1)]

/-- Frequencies for the scenario automaton that name the initial and the final state
only: there is no candidate. -/
def bareFreq : StdMap Nat := [(0, 100), (5, 0)]

/-- Frequencies for the scenario automaton in which the only candidate, state 4, was
never visited. -/
def idleFreq : StdMap Nat := [(0, 100), (4, 0), (5, 0)]

/-- Modelled from the spec: `Nfa::merge_states`, whose code is in `nfa.cpp`.  Every
source state of the map is collapsed into its target: the sources leave the
automaton, the state count shrinks by their number, and what led to or from a source
leads to or from its target. -/
def collapse (nfa : Nfa) (mapping : StdMap State) : Nfa :=
  let gone := fun (s : State) => (StdMap.find mapping s).isSome
  let rep := fun (s : State) => StdMap.index s mapping s
  { initial_state := nfa.initial_state,
    final_states := (nfa.final_states.map rep).foldl setInsert [],
    state_count := nfa.state_count - mapping.length,
    rules := (nfa.rules.filter (fun p => !gone p.1)).map (fun p => (p.1, rep p.2)),
    depth := nfa.depth.filter (fun p => !gone p.1),
    suc := ((nfa.suc.map (fun q => rep q.1)).foldl setInsert []).map (fun t =>
      (t, ((nfa.suc.filter (fun q => rep q.1 == t)).flatMap
        (fun q => q.2.map rep)).foldl setInsert [])) }

/-- Modelled from the spec: a world in which `samples` is a frequency file with the
given lines, a state is valid when the automaton knows its depth, `merge_states`
collapses sources into targets, and there is no capture. -/
def fileWorld (lines : List (List Char)) : World :=
  { merge_states := collapse,
    is_state := fun nfa s => decide (s ∈ StdMap.keys nfa.depth),
    build := fun nfa => nfa,
    file := some lines,
    pcap_opens := false,
    payloads := 0,
    freq_all := fun _ => [],
    freq_chunk := fun _ _ _ => [] }

/-- The frequency file of the chain scenario. -/
def chainFile : List (List Char) :=
  [ "0 100".toList, "1 100".toList, "2 98".toList, "3 97".toList, "4 1".toList,
    "5 0".toList]

/-- The frequency file of the scenario after merging. -/
def scenarioPruneFile : List (List Char) :=
  [ "0 100".toList, "4 1".toList, "5 0".toList]

/-! ## Facts about `std::map` -/

namespace StdMap

variable {V : Type}

theorem find_isSome_iff (m : StdMap V) (k : State) :
    (find m k).isSome ↔ k ∈ keys m := by
  induction m with
  | nil => simp [find, keys]
  | cons p rest ih =>
    obtain ⟨k', v⟩ := p
    by_cases h : k' = k
    · simp [find, keys, h]
    · have h' : ¬ k = k' := fun e => h e.symm
      simp only [find, h, if_false, ih]
      simp [keys, h']

theorem find_of_mem_keys {m : StdMap V} {k : State} (h : k ∈ keys m) :
    ∃ v, find m k = some v := by
  have := (find_isSome_iff m k).2 h
  exact Option.isSome_iff_exists.1 this

theorem mem_keys_of_find {m : StdMap V} {k : State} {v : V} (h : find m k = some v) :
    k ∈ keys m :=
  (find_isSome_iff m k).1 (by simp [h])

theorem find_mem {m : StdMap V} {k : State} {v : V} (h : find m k = some v) :
    (k, v) ∈ m := by
  induction m with
  | nil => simp [find] at h
  | cons p rest ih =>
    obtain ⟨k', v'⟩ := p
    by_cases hk : k' = k
    · simp [find, hk] at h
      simp [hk, h]
    · simp only [find, hk, if_false] at h
      exact List.mem_cons_of_mem _ (ih h)

theorem mem_keys_insert (m : StdMap V) (k : State) (v : V) (k' : State) :
    k' ∈ keys (insert m k v) ↔ k' = k ∨ k' ∈ keys m := by
  induction m with
  | nil => simp [insert, keys]
  | cons p rest ih =>
    obtain ⟨k1, v1⟩ := p
    unfold insert
    by_cases h1 : k < k1
    · simp [h1, keys]
    · by_cases h2 : k = k1
      · subst h2
        simp [keys]
      · simp only [h1, h2, if_false]
        have ih' : k' ∈ List.map Prod.fst (insert rest k v) ↔
            k' = k ∨ k' ∈ List.map Prod.fst rest := ih
        simp only [keys, List.map_cons, List.mem_cons, ih']
        tauto

theorem find_insert (m : StdMap V) (k : State) (v : V) (k' : State) :
    find (insert m k v) k' = if k' = k then some v else find m k' := by
  induction m with
  | nil =>
    by_cases h : k' = k
    · subst h
      simp [insert, find]
    · have h' : ¬ k = k' := fun e => h e.symm
      simp [insert, find, h, h']
  | cons p rest ih =>
    obtain ⟨k1, v1⟩ := p
    unfold insert
    by_cases h1 : k < k1
    · rw [if_pos h1]
      by_cases h : k' = k
      · subst h
        simp [find]
      · have h' : ¬ k = k' := fun e => h e.symm
        simp [find, h, h']
    · rw [if_neg h1]
      by_cases h2 : k = k1
      · rw [if_pos h2]
        subst h2
        by_cases h : k' = k
        · subst h
          simp [find]
        · have h' : ¬ k = k' := fun e => h e.symm
          simp [find, h, h']
      · rw [if_neg h2]
        by_cases h3 : k1 = k'
        · subst h3
          have h' : ¬ k1 = k := fun e => h2 e.symm
          simp [find, h']
        · simp [find, h3, ih]

end StdMap

/-! ## Facts about the first loop of `prune` -/

theorem scanFreq_eq (nfa : Nfa) (m : StdMap Nat) (ss : List State) (t : Nat) :
    scanFreq nfa nfa.initial_state m (ss, t) =
      (ss ++ candidates nfa m, (m.map Prod.snd).foldl max t) := by
  induction m generalizing ss t with
  | nil => simp [scanFreq, candidates, StdMap.keys]
  | cons p rest ih =>
    obtain ⟨s, f⟩ := p
    have hmax : (if t < f then f else t) = max t f := by
      rcases Nat.lt_or_ge t f with h | h
      · simp [h, Nat.max_eq_right (Nat.le_of_lt h)]
      · simp [Nat.not_lt.2 h, Nat.max_eq_left h]
    simp only [scanFreq, ih, hmax]
    by_cases hc : (!nfa.is_final s && s != nfa.initial_state) = true
    · simp [candidates, StdMap.keys, hc, List.filter_cons]
    · simp [candidates, StdMap.keys, hc, List.filter_cons]

theorem scanFreq_start (nfa : Nfa) (m : StdMap Nat) :
    scanFreq nfa nfa.initial_state m ([], 0) = (candidates nfa m, totalMax m) := by
  simp [scanFreq_eq, totalMax]

theorem foldl_max_ge (l : List Nat) (t : Nat) : t ≤ l.foldl max t := by
  induction l generalizing t with
  | nil => simp
  | cons a rest ih =>
    simp only [List.foldl_cons]
    exact Nat.le_trans (Nat.le_max_left t a) (ih _)

theorem foldl_max_mem (l : List Nat) (t : Nat) (a : Nat) (h : a ∈ l) :
    a ≤ l.foldl max t := by
  induction l generalizing t with
  | nil => simp at h
  | cons b rest ih =>
    simp only [List.foldl_cons]
    rcases List.mem_cons.1 h with h | h
    · subst h
      exact Nat.le_trans (Nat.le_max_right t a) (foldl_max_ge _ _)
    · exact ih _ h

/-- Every frequency in the table is at most `total`. -/
theorem le_totalMax {m : StdMap Nat} {k : State} {f : Nat} (h : StdMap.find m k = some f) :
    f ≤ totalMax m := by
  unfold totalMax
  apply foldl_max_mem
  have := StdMap.find_mem h
  exact List.mem_map.2 ⟨(k, f), this, rfl⟩

theorem candidates_subset_keys (nfa : Nfa) (m : StdMap Nat) :
    ∀ s ∈ candidates nfa m, s ∈ StdMap.keys m := by
  intro s hs
  exact (List.mem_filter.1 hs).1

theorem candidates_not_final (nfa : Nfa) (m : StdMap Nat) :
    ∀ s ∈ candidates nfa m, nfa.is_final s = false ∧ s ≠ nfa.initial_state := by
  intro s hs
  have := (List.mem_filter.1 hs).2
  simpa using this

theorem candidates_nodup (nfa : Nfa) (m : StdMap Nat) (h : StdMap.WF m) :
    (candidates nfa m).Nodup := by
  unfold candidates
  apply List.Nodup.filter
  unfold StdMap.WF at h
  exact h.imp (fun hlt => Nat.ne_of_lt hlt)

/-! ## Facts about the sort -/

theorem index_of_find {V : Type} {d : V} {m : StdMap V} {k : State} {v : V}
    (h : StdMap.find m k = some v) : StdMap.index d m k = v := by
  simp [StdMap.index, h]

/-- What a comparison that returns tells about its arguments. -/
theorem cmpStates_ok {sf d : StdMap Nat} {x y : State} {b : Bool}
    (h : cmpStates sf d x y = .ok b) :
    b = decide (before sf d x y) ∧ x ∈ StdMap.keys sf ∧ y ∈ StdMap.keys sf ∧
      (StdMap.index 0 sf x = StdMap.index 0 sf y →
        x ∈ StdMap.keys d ∧ y ∈ StdMap.keys d) := by
  unfold cmpStates at h
  cases hx : StdMap.find sf x with
  | none => simp [StdMap.at_, hx, bind, Except.bind] at h
  | some fx =>
    cases hy : StdMap.find sf y with
    | none => simp [StdMap.at_, hx, hy, bind, Except.bind] at h
    | some fy =>
      have ix := index_of_find (d := 0) hx
      have iy := index_of_find (d := 0) hy
      have kx := StdMap.mem_keys_of_find hx
      have ky := StdMap.mem_keys_of_find hy
      by_cases hf : fx = fy
      · cases hdx : StdMap.find d x with
        | none => simp [StdMap.at_, hx, hy, hf, hdx, bind, Except.bind] at h
        | some dx =>
          cases hdy : StdMap.find d y with
          | none => simp [StdMap.at_, hx, hy, hf, hdx, hdy, bind, Except.bind] at h
          | some dy =>
            have jx := index_of_find (d := 0) hdx
            have jy := index_of_find (d := 0) hdy
            simp [StdMap.at_, hx, hy, hf, hdx, hdy, bind, Except.bind, pure,
              Except.pure] at h
            refine ⟨?_, kx, ky, fun _ => ⟨StdMap.mem_keys_of_find hdx,
              StdMap.mem_keys_of_find hdy⟩⟩
            subst hf
            rw [← h]
            simp [before, ix, iy, jx, jy]
      · simp [StdMap.at_, hx, hy, hf, bind, Except.bind, pure, Except.pure] at h
        refine ⟨?_, kx, ky, fun e => absurd (by rw [ix, iy] at e; exact e) hf⟩
        rw [← h]
        have hne : ¬ (fx = fy ∧ StdMap.index 0 d x > StdMap.index 0 d y) :=
          fun e => hf e.1
        simp [before, ix, iy, hf]

/-- A comparison of two keys that both have a depth returns. -/
theorem cmpStates_total {sf d : StdMap Nat} {x y : State}
    (hx : x ∈ StdMap.keys sf) (hy : y ∈ StdMap.keys sf)
    (dx : x ∈ StdMap.keys d) (dy : y ∈ StdMap.keys d) :
    ∃ b, cmpStates sf d x y = .ok b := by
  obtain ⟨fx, hfx⟩ := StdMap.find_of_mem_keys hx
  obtain ⟨fy, hfy⟩ := StdMap.find_of_mem_keys hy
  obtain ⟨ex, hdx⟩ := StdMap.find_of_mem_keys dx
  obtain ⟨ey, hdy⟩ := StdMap.find_of_mem_keys dy
  unfold cmpStates
  by_cases hf : fx = fy
  · exact ⟨decide (ex > ey), by simp [StdMap.at_, hfx, hfy, hf, hdx, hdy, bind,
      Except.bind, pure, Except.pure]⟩
  · exact ⟨decide (fx < fy), by simp [StdMap.at_, hfx, hfy, hf, bind, Except.bind, pure,
      Except.pure]⟩

theorem before_asymm {sf d : StdMap Nat} {x y : State} (h : before sf d x y) :
    ¬ before sf d y x := by
  unfold before at *
  omega

theorem before_trans {sf d : StdMap Nat} {x y z : State} (h1 : before sf d x y)
    (h2 : before sf d y z) : before sf d x z := by
  unfold before at *
  omega

/-- Negated order is transitive too: the order is a strict weak order. -/
theorem not_before_trans {sf d : StdMap Nat} {x y z : State} (h1 : ¬ before sf d y x)
    (h2 : ¬ before sf d z y) : ¬ before sf d z x := by
  unfold before at *
  omega

theorem insertSorted_perm {cmp : State → State → Except Failure Bool} {x : State}
    {l r : List State} (h : insertSorted cmp x l = .ok r) : r.Perm (x :: l) := by
  induction l generalizing r with
  | nil =>
    simp [insertSorted, pure, Except.pure] at h
    subst h
    exact List.Perm.refl _
  | cons y ys ih =>
    unfold insertSorted at h
    cases hc : cmp x y with
    | error e => simp [hc, bind, Except.bind] at h
    | ok b =>
      cases b with
      | true =>
        simp [hc, bind, Except.bind, pure, Except.pure] at h
        subst h
        exact List.Perm.refl _
      | false =>
        cases hr : insertSorted cmp x ys with
        | error e => simp [hc, hr, bind, Except.bind] at h
        | ok r' =>
          simp [hc, hr, bind, Except.bind, pure, Except.pure] at h
          subst h
          exact ((ih hr).cons y).trans (List.Perm.swap x y ys)

theorem sortStates_perm {cmp : State → State → Except Failure Bool}
    {l r : List State} (h : sortStates cmp l = .ok r) : r.Perm l := by
  induction l generalizing r with
  | nil =>
    simp [sortStates, pure, Except.pure] at h
    subst h
    exact List.Perm.refl _
  | cons x xs ih =>
    unfold sortStates at h
    cases hr : sortStates cmp xs with
    | error e => simp [hr, bind, Except.bind] at h
    | ok r' =>
      simp only [hr, bind, Except.bind] at h
      exact (insertSorted_perm h).trans ((ih hr).cons x)

theorem insertSorted_sorted {sf d : StdMap Nat} {x : State} {l r : List State}
    (hl : SortedBy sf d l) (h : insertSorted (cmpStates sf d) x l = .ok r) :
    SortedBy sf d r := by
  induction l generalizing r with
  | nil =>
    simp [insertSorted, pure, Except.pure] at h
    subst h
    simp [SortedBy]
  | cons y ys ih =>
    unfold insertSorted at h
    cases hc : cmpStates sf d x y with
    | error e => simp [hc, bind, Except.bind] at h
    | ok b =>
      have hb := (cmpStates_ok hc).1
      unfold SortedBy at hl
      have hy := (List.pairwise_cons.1 hl).1
      have hys := (List.pairwise_cons.1 hl).2
      cases b with
      | true =>
        simp [hc, bind, Except.bind, pure, Except.pure] at h
        subst h
        have hxy : before sf d x y := by simpa using hb.symm
        unfold SortedBy
        refine List.pairwise_cons.2 ⟨?_, hl⟩
        intro z hz
        rcases List.mem_cons.1 hz with hz | hz
        · subst hz
          exact before_asymm hxy
        · intro hzx
          exact hy z hz (before_trans hzx hxy)
      | false =>
        cases hr : insertSorted (cmpStates sf d) x ys with
        | error e => simp [hc, hr, bind, Except.bind] at h
        | ok r' =>
          simp [hc, hr, bind, Except.bind, pure, Except.pure] at h
          subst h
          have hxy : ¬ before sf d x y := by simpa using hb.symm
          have ihr := ih hys hr
          unfold SortedBy
          refine List.pairwise_cons.2 ⟨?_, ihr⟩
          intro z hz
          have hz' := (insertSorted_perm hr).subset hz
          rcases List.mem_cons.1 hz' with hz' | hz'
          · subst hz'
            exact hxy
          · exact hy z hz'

theorem sortStates_sorted {sf d : StdMap Nat} {l r : List State}
    (h : sortStates (cmpStates sf d) l = .ok r) : SortedBy sf d r := by
  induction l generalizing r with
  | nil =>
    simp [sortStates, pure, Except.pure] at h
    subst h
    simp [SortedBy]
  | cons x xs ih =>
    unfold sortStates at h
    cases hr : sortStates (cmpStates sf d) xs with
    | error e => simp [hr, bind, Except.bind] at h
    | ok r' =>
      simp only [hr, bind, Except.bind] at h
      exact insertSorted_sorted (ih hr) h

theorem insertSorted_total {sf d : StdMap Nat} {x : State} {l : List State}
    (hx : x ∈ StdMap.keys sf ∧ x ∈ StdMap.keys d)
    (hl : ∀ s ∈ l, s ∈ StdMap.keys sf ∧ s ∈ StdMap.keys d) :
    ∃ r, insertSorted (cmpStates sf d) x l = .ok r := by
  induction l with
  | nil => exact ⟨[x], rfl⟩
  | cons y ys ih =>
    have hy := hl y (List.mem_cons_self _ _)
    obtain ⟨b, hb⟩ := cmpStates_total hx.1 hy.1 hx.2 hy.2
    obtain ⟨r, hr⟩ := ih (fun s hs => hl s (List.mem_cons_of_mem _ hs))
    unfold insertSorted
    cases b with
    | true => exact ⟨x :: y :: ys, by simp [hb, bind, Except.bind, pure, Except.pure]⟩
    | false => exact ⟨y :: r, by simp [hb, hr, bind, Except.bind, pure, Except.pure]⟩

/-- The sort returns when every element has a frequency and a depth. -/
theorem sortStates_total {sf d : StdMap Nat} {l : List State}
    (hl : ∀ s ∈ l, s ∈ StdMap.keys sf ∧ s ∈ StdMap.keys d) :
    ∃ r, sortStates (cmpStates sf d) l = .ok r := by
  induction l with
  | nil => exact ⟨[], rfl⟩
  | cons x xs ih =>
    obtain ⟨r', hr'⟩ := ih (fun s hs => hl s (List.mem_cons_of_mem _ hs))
    have hperm := sortStates_perm hr'
    obtain ⟨r, hr⟩ := insertSorted_total (l := r') (hl x (List.mem_cons_self _ _))
      (fun s hs => hl s (List.mem_cons_of_mem _ (hperm.subset hs)))
    unfold sortStates
    exact ⟨r, by simp only [hr', bind, Except.bind]; exact hr⟩

/-! ## Facts about the removal loops -/

theorem removeState_eq {sf : StdMap Nat} {rm : StdMap State} {total : Nat} {s : State}
    (acc : PruneResult) (h : s ∈ StdMap.keys sf) :
    removeState sf rm total s acc = .ok (recordState sf rm total acc s) := by
  obtain ⟨f, hf⟩ := StdMap.find_of_mem_keys h
  simp [removeState, recordState, StdMap.at_, hf, StdMap.index, bind, Except.bind, pure,
    Except.pure]

theorem fixedWalk_eq {sf : StdMap Nat} {rm : StdMap State} {total : Nat} (k : Nat)
    (l : List State) (acc : PruneResult) (hl : ∀ s ∈ l, s ∈ StdMap.keys sf) :
    fixedWalk sf rm total k l acc =
      .ok (recordAll sf rm total (l.take (k - acc.removed)) acc) := by
  induction l generalizing acc with
  | nil => simp [fixedWalk, recordAll]
  | cons s rest ih =>
    unfold fixedWalk
    by_cases h : acc.removed < k
    · rw [if_pos h]
      rw [removeState_eq acc (hl s (List.mem_cons_self _ _))]
      simp only [bind, Except.bind]
      rw [ih _ (fun t ht => hl t (List.mem_cons_of_mem _ ht))]
      have e : k - acc.removed = (k - (acc.removed + 1)) + 1 := by omega
      rw [e]
      simp [recordAll, recordState]
    · rw [if_neg h]
      have e : k - acc.removed = 0 := by omega
      rw [e]
      simp [recordAll]

theorem recordAll_removed (sf : StdMap Nat) (rm : StdMap State) (total : Nat)
    (l : List State) (acc : PruneResult) :
    (recordAll sf rm total l acc).removed = acc.removed + l.length := by
  induction l generalizing acc with
  | nil => simp [recordAll]
  | cons s rest ih =>
    have := ih (recordState sf rm total acc s)
    simp only [recordAll, List.foldl_cons] at this ⊢
    rw [this]
    simp [recordState]
    omega

theorem recordAll_error (sf : StdMap Nat) (rm : StdMap State) (total : Nat)
    (l : List State) (acc : PruneResult) :
    (recordAll sf rm total l acc).error = errorSum sf total l acc.error := by
  induction l generalizing acc with
  | nil => simp [recordAll, errorSum]
  | cons s rest ih =>
    have := ih (recordState sf rm total acc s)
    simp only [recordAll, errorSum, List.foldl_cons] at this ⊢
    rw [this]
    simp [recordState]

theorem recordAll_find (sf : StdMap Nat) (rm : StdMap State) (total : Nat)
    (l : List State) (acc : PruneResult) (k : State) :
    StdMap.find (recordAll sf rm total l acc).merge_map k =
      if k ∈ l then some (StdMap.index 0 rm k) else StdMap.find acc.merge_map k := by
  induction l generalizing acc with
  | nil => simp [recordAll]
  | cons s rest ih =>
    have := ih (recordState sf rm total acc s)
    simp only [recordAll, List.foldl_cons] at this ⊢
    rw [this]
    by_cases h1 : k ∈ rest
    · simp [h1]
    · by_cases h2 : k = s
      · subst h2
        simp [h1, recordState, StdMap.find_insert]
      · simp [h1, h2, recordState, StdMap.find_insert]

theorem recordAll_keys (sf : StdMap Nat) (rm : StdMap State) (total : Nat)
    (l : List State) (acc : PruneResult) (k : State) :
    k ∈ StdMap.keys (recordAll sf rm total l acc).merge_map ↔
      k ∈ l ∨ k ∈ StdMap.keys acc.merge_map := by
  induction l generalizing acc with
  | nil => simp [recordAll]
  | cons s rest ih =>
    have := ih (recordState sf rm total acc s)
    simp only [recordAll, List.foldl_cons] at this ⊢
    rw [this]
    simp only [recordState, StdMap.mem_keys_insert, List.mem_cons]
    tauto

theorem toRemove_eq_floor (pct : ℚ) (n : Nat) : toRemove pct n = ⌊(1 - pct) * (n : ℚ)⌋₊ := by
  unfold toRemove
  rw [← Int.floor_toNat]
  rfl

/-- In fixed-ratio mode `prune` is the sort followed by the loop body run over the
first `to_remove` sorted candidates. -/
theorem prune_fixed_eq (nfa : Nfa) (sf : StdMap Nat) (pct : ℚ) (h0 : 0 < pct)
    (h1 : pct ≤ 1) :
    prune nfa sf pct =
      match sortStates (cmpStates sf nfa.depth) (candidates nfa sf) with
      | .error e => .error e
      | .ok ss => .ok (recordAll sf nfa.rules (totalMax sf)
          (ss.take (toRemove pct nfa.state_count)) pruneStart) := by
  have hne : pct ≠ -1 := by
    intro e
    rw [e] at h0
    exact absurd h0 (by norm_num)
  have hassert : ¬ ¬ ((0 < pct ∧ pct ≤ 1) ∨ pct = -1) := not_not.2 (Or.inl ⟨h0, h1⟩)
  unfold prune
  rw [if_neg hassert]
  simp only [scanFreq_start]
  cases hs : sortStates (cmpStates sf nfa.depth) (candidates nfa sf) with
  | error e => rfl
  | ok ss =>
    simp only [if_neg hne]
    have hk : ∀ s ∈ ss, s ∈ StdMap.keys sf := fun s hs' =>
      candidates_subset_keys nfa sf s ((sortStates_perm hs).subset hs')
    rw [fixedWalk_eq _ _ _ hk]
    rfl

theorem recordAll_take_succ (sf : StdMap Nat) (rm : StdMap State) (total : Nat)
    (s : State) (rest : List State) (acc : PruneResult) (j : Nat) :
    recordAll sf rm total ((s :: rest).take (j + 1)) acc =
      recordAll sf rm total (rest.take j) (recordState sf rm total acc s) := by
  simp [recordAll]

/-- A run of the automatic loop that returns has run the loop body over a prefix of
the list; the running error was below the budget before each step and is not below
it at the end. -/
theorem autoWalk_ok {sf : StdMap Nat} {rm : StdMap State} {total : Nat}
    (l : List State) (acc r : PruneResult) (hl : ∀ s ∈ l, s ∈ StdMap.keys sf)
    (h : autoWalk sf rm total l acc = .ok r) :
    ∃ j, j ≤ l.length ∧ r = recordAll sf rm total (l.take j) acc ∧
      FVal.lt r.error (1 / 1000) = false ∧
      ∀ i, i < j → FVal.lt (recordAll sf rm total (l.take i) acc).error (1 / 1000) = true := by
  induction l generalizing acc with
  | nil =>
    unfold autoWalk at h
    by_cases hb : FVal.lt acc.error (1 / 1000) = true
    · rw [if_pos hb] at h
      cases h
    · rw [if_neg hb] at h
      have hr : r = acc := by
        injection h with h
        exact h.symm
      subst hr
      refine ⟨0, Nat.le_refl _, by simp [recordAll], by simpa using hb, ?_⟩
      intro i hi
      omega
  | cons s rest ih =>
    unfold autoWalk at h
    by_cases hb : FVal.lt acc.error (1 / 1000) = true
    · rw [if_pos hb, removeState_eq acc (hl s (List.mem_cons_self _ _))] at h
      simp only [bind, Except.bind] at h
      obtain ⟨j, hj, hr, hfin, hbelow⟩ :=
        ih _ (fun t ht => hl t (List.mem_cons_of_mem _ ht)) h
      refine ⟨j + 1, by simp; omega, ?_, hfin, ?_⟩
      · rw [recordAll_take_succ]
        exact hr
      · intro i hi
        cases i with
        | zero => simpa [recordAll] using hb
        | succ i =>
          rw [recordAll_take_succ]
          exact hbelow i (by omega)
    · rw [if_neg hb] at h
      have hr : r = acc := by
        injection h with h
        exact h.symm
      subst hr
      refine ⟨0, Nat.zero_le _, by simp [recordAll], by simpa using hb, ?_⟩
      intro i hi
      omega

/-- Every run of `prune` that returns has sorted the candidates and run the loop body
over a prefix of the sorted list. -/
theorem prune_ok_shape (nfa : Nfa) (sf : StdMap Nat) (pct : ℚ) (r : PruneResult)
    (h : prune nfa sf pct = .ok r) :
    ∃ ss j, sortStates (cmpStates sf nfa.depth) (candidates nfa sf) = .ok ss ∧
      j ≤ ss.length ∧
      r = recordAll sf nfa.rules (totalMax sf) (ss.take j) pruneStart := by
  unfold prune at h
  by_cases ha : ¬ ((0 < pct ∧ pct ≤ 1) ∨ pct = -1)
  · rw [if_pos ha] at h
    cases h
  · rw [if_neg ha] at h
    simp only [scanFreq_start] at h
    cases hs : sortStates (cmpStates sf nfa.depth) (candidates nfa sf) with
    | error e => simp [hs] at h
    | ok ss =>
      simp only [hs] at h
      have hk : ∀ s ∈ ss, s ∈ StdMap.keys sf := fun s hs' =>
        candidates_subset_keys nfa sf s ((sortStates_perm hs).subset hs')
      by_cases hp : pct = -1
      · rw [if_pos hp] at h
        obtain ⟨j, hj, hr, _, _⟩ := autoWalk_ok ss _ r hk h
        exact ⟨ss, j, rfl, hj, hr⟩
      · rw [if_neg hp, fixedWalk_eq _ _ _ hk] at h
        injection h with h
        refine ⟨ss, min (toRemove pct nfa.state_count) ss.length, rfl,
          Nat.min_le_right _ _, ?_⟩
        rw [← h]
        have : List.take (min (toRemove pct nfa.state_count) ss.length) ss =
            List.take (toRemove pct nfa.state_count) ss := by
          rw [List.take_eq_take]
          simp
        rw [this]
        rfl

theorem prune_fixed_returns (nfa : Nfa) (sf : StdMap Nat) (pct : ℚ) (h0 : 0 < pct)
    (h1 : pct ≤ 1) (hd : ∀ s ∈ candidates nfa sf, s ∈ StdMap.keys nfa.depth) :
    ∃ r, prune nfa sf pct = .ok r := by
  rw [prune_fixed_eq nfa sf pct h0 h1]
  obtain ⟨ss, hss⟩ := @sortStates_total sf nfa.depth (candidates nfa sf)
    (fun s hs => ⟨candidates_subset_keys nfa sf s hs, hd s hs⟩)
  rw [hss]
  exact ⟨_, rfl⟩

theorem prune_auto_scenario_eval :
    prune scenarioPruneNfa scenarioPruneFreq (-1) =
      .ok { error := FVal.num (1 / 100), removed := 1, merge_map := [(4, 5)] } := by
  simp [prune, scenarioPruneNfa, scenarioPruneFreq, scanFreq, Nfa.is_final, sortStates,
    insertSorted, cmpStates, StdMap.at_, StdMap.find, autoWalk, removeState, FVal.lt,
    FVal.add, FVal.div, StdMap.insert, StdMap.index, bind, Except.bind, pure, Except.pure]
  norm_num

theorem fadd_swap (e x y : FVal) :
    FVal.add (FVal.add e x) y = FVal.add (FVal.add e y) x := by
  cases e <;> cases x <;> cases y <;> simp [FVal.add, add_right_comm]

/-- The running error does not depend on the order in which states are recorded. -/
theorem errorSum_perm (sf : StdMap Nat) (total : Nat) {l₁ l₂ : List State}
    (h : l₁.Perm l₂) (e0 : FVal) : errorSum sf total l₁ e0 = errorSum sf total l₂ e0 := by
  unfold errorSum
  exact h.foldl_eq' (fun x _ y _ z => fadd_swap z _ _) e0

theorem index_le_totalMax (sf : StdMap Nat) (s : State) :
    StdMap.index 0 sf s ≤ totalMax sf := by
  unfold StdMap.index
  cases h : StdMap.find sf s with
  | none => exact Nat.zero_le _
  | some f => exact le_totalMax h

/-- With a positive `total` the running error is an ordinary sum of quotients. -/
theorem errorSum_num (sf : StdMap Nat) (total : Nat) (ht : 0 < total) (l : List State)
    (q : ℚ) :
    errorSum sf total l (FVal.num q) =
      FVal.num (q + (l.map (fun s => ((StdMap.index 0 sf s : ℕ) : ℚ) / (total : ℚ))).sum) := by
  induction l generalizing q with
  | nil => simp [errorSum]
  | cons s rest ih =>
    have hne : total ≠ 0 := Nat.pos_iff_ne_zero.1 ht
    have := ih (q + ((StdMap.index 0 sf s : ℕ) : ℚ) / (total : ℚ))
    simp only [errorSum, List.foldl_cons, FVal.div, if_neg hne, FVal.add] at this ⊢
    rw [this]
    simp [add_assoc]

theorem quotient_sum_bounds (sf : StdMap Nat) (l : List State) :
    0 ≤ (l.map (fun s => ((StdMap.index 0 sf s : ℕ) : ℚ) / (totalMax sf : ℚ))).sum ∧
      (l.map (fun s => ((StdMap.index 0 sf s : ℕ) : ℚ) / (totalMax sf : ℚ))).sum
        ≤ (l.length : ℚ) := by
  induction l with
  | nil => simp
  | cons s rest ih =>
    have h1 : (0 : ℚ) ≤ ((StdMap.index 0 sf s : ℕ) : ℚ) / (totalMax sf : ℚ) :=
      div_nonneg (Nat.cast_nonneg _) (Nat.cast_nonneg _)
    have h2 : ((StdMap.index 0 sf s : ℕ) : ℚ) / (totalMax sf : ℚ) ≤ 1 := by
      apply div_le_one_of_le₀
      · exact_mod_cast index_le_totalMax sf s
      · exact Nat.cast_nonneg _
    simp only [List.map_cons, List.sum_cons, List.length_cons, Nat.cast_add, Nat.cast_one]
    constructor
    · linarith [ih.1]
    · linarith [ih.2]

/-- One more step of the loop adds the quotient of one state to the running error. -/
theorem errorSum_take_succ (sf : StdMap Nat) (total : Nat) (l : List State) (e0 : FVal)
    (i : Nat) (hi : i < l.length) :
    ∃ s, s ∈ l ∧ errorSum sf total (l.take (i + 1)) e0 =
      FVal.add (errorSum sf total (l.take i) e0) (FVal.div (StdMap.index 0 sf s) total) := by
  refine ⟨l[i], List.getElem_mem _, ?_⟩
  have h : l.take (i + 1) = l.take i ++ [l[i]] := by
    rw [List.take_succ, List.getElem?_eq_getElem hi]
    rfl
  unfold errorSum
  rw [h, List.foldl_append]
  rfl

/-- A step of the loop never lowers the running error. -/
theorem fadd_div_not_lt (e : FVal) (a b : Nat) :
    FVal.ltF (FVal.add e (FVal.div a b)) e = false := by
  have hq : (0 : ℚ) ≤ (a : ℚ) / (b : ℚ) := div_nonneg (Nat.cast_nonneg _) (Nat.cast_nonneg _)
  unfold FVal.div
  by_cases hb : b = 0
  · by_cases ha : a = 0
    · cases e <;> simp [hb, ha, FVal.add, FVal.ltF]
    · cases e <;> simp [hb, ha, FVal.add, FVal.ltF]
  · cases e with
    | num q =>
      simp only [if_neg hb, FVal.add, FVal.ltF, decide_eq_false_iff_not, not_lt]
      linarith
    | inf => simp [hb, FVal.add, FVal.ltF]
    | nan => simp [hb, FVal.add, FVal.ltF]

theorem wf_insert {V : Type} (m : StdMap V) (k : State) (v : V) (h : StdMap.WF m) :
    StdMap.WF (StdMap.insert m k v) := by
  induction m with
  | nil => simp [StdMap.insert, StdMap.WF, StdMap.keys]
  | cons p rest ih =>
    obtain ⟨k1, v1⟩ := p
    unfold StdMap.WF StdMap.keys at h
    simp only [List.map_cons, List.pairwise_cons] at h
    unfold StdMap.insert
    by_cases h1 : k < k1
    · rw [if_pos h1]
      unfold StdMap.WF StdMap.keys
      simp only [List.map_cons, List.pairwise_cons, List.mem_cons]
      refine ⟨?_, h.1, h.2⟩
      intro a ha
      rcases ha with ha | ha
      · subst ha
        exact h1
      · exact Nat.lt_trans h1 (h.1 a ha)
    · rw [if_neg h1]
      by_cases h2 : k = k1
      · rw [if_pos h2]
        subst h2
        unfold StdMap.WF StdMap.keys
        simp only [List.map_cons, List.pairwise_cons]
        exact h
      · rw [if_neg h2]
        have ih' := ih h.2
        unfold StdMap.WF at ih' ⊢
        show List.Pairwise (· < ·) (k1 :: StdMap.keys (StdMap.insert rest k v))
        refine List.pairwise_cons.2 ⟨?_, ih'⟩
        intro a ha
        rcases (StdMap.mem_keys_insert rest k v a).1 ha with ha | ha
        · subst ha
          exact Nat.lt_of_le_of_ne (Nat.le_of_not_lt h1) (fun e => h2 e.symm)
        · exact h.1 a ha

theorem recordAll_wf (sf : StdMap Nat) (rm : StdMap State) (total : Nat)
    (l : List State) (acc : PruneResult) (h : StdMap.WF acc.merge_map) :
    StdMap.WF (recordAll sf rm total l acc).merge_map := by
  induction l generalizing acc with
  | nil => simpa [recordAll] using h
  | cons s rest ih =>
    have := ih (recordState sf rm total acc s) (by
      simp only [recordState]
      exact wf_insert _ _ _ h)
    simpa [recordAll] using this

/-- The keys of the merge map are the recorded states, in some order. -/
theorem recordAll_keys_perm (sf : StdMap Nat) (rm : StdMap State) (total : Nat)
    (l : List State) (hn : l.Nodup) :
    (StdMap.keys (recordAll sf rm total l pruneStart).merge_map).Perm l := by
  have hwf := recordAll_wf sf rm total l pruneStart (by
    simp [pruneStart, StdMap.WF, StdMap.keys])
  have hnd : (StdMap.keys (recordAll sf rm total l pruneStart).merge_map).Nodup := by
    unfold StdMap.WF at hwf
    exact hwf.imp (fun hlt => Nat.ne_of_lt hlt)
  refine (List.perm_ext_iff_of_nodup hnd hn).2 ?_
  intro a
  rw [recordAll_keys]
  simp [pruneStart, StdMap.keys]

/-! ### The bound on the error -/

theorem prune_flat_eval :
    prune smallNfa flatFreq (1 / 2) =
      .ok { error := FVal.num 2, removed := 2, merge_map := [(1, 3), (2, 3)] } := by
  have h : toRemove (1 / 2) 4 = 2 := by
    rw [toRemove_eq_floor]
    rw [Nat.floor_eq_iff (by norm_num)]
    norm_num
  simp [prune, smallNfa, flatFreq, scanFreq, Nfa.is_final, sortStates,
    insertSorted, cmpStates, StdMap.at_, StdMap.find, fixedWalk, removeState,
    FVal.add, FVal.div, StdMap.insert, StdMap.index, bind, Except.bind, pure, Except.pure]
  norm_num
  rw [h]
  simp

/-- C3 (as stated, refuted): on the four-state automaton with all frequencies equal
to 5 and `pct = 1/2`, `prune` removes states 1 and 2 and returns the error
`5/5 + 5/5 = 2`, which is not at most 1. -/
theorem prune_error_exceeds_one :
    ∃ r, prune smallNfa flatFreq (1 / 2) = .ok r ∧ r.error = FVal.num 2 ∧
      FVal.le r.error 1 = false := by
  refine ⟨_, prune_flat_eval, rfl, ?_⟩
  simp only [FVal.le]
  norm_num

/-- C3 (amended): in fixed-ratio mode, with a positive maximal frequency, the error
returned by `prune` is a finite number between 0 and the number of removed states:
every removed state adds at most 1. -/
theorem prune_fixed_error_bounds (nfa : Nfa) (sf : StdMap Nat) (pct : ℚ)
    (h0 : 0 < pct) (h1 : pct ≤ 1) (ht : 0 < totalMax sf) :
    ((∀ s ∈ candidates nfa sf, s ∈ StdMap.keys nfa.depth) →
        ∃ r, prune nfa sf pct = .ok r) ∧
      ∀ r, prune nfa sf pct = .ok r →
        ∃ q : ℚ, r.error = FVal.num q ∧ 0 ≤ q ∧ q ≤ (r.removed : ℚ) := by
  refine ⟨prune_fixed_returns nfa sf pct h0 h1, ?_⟩
  intro r hr
  obtain ⟨ss, j, _, _, hrec⟩ := prune_ok_shape nfa sf pct r hr
  have he : r.error = errorSum sf (totalMax sf) (ss.take j) (FVal.num 0) := by
    rw [hrec, recordAll_error]
    rfl
  have hrem : r.removed = (ss.take j).length := by
    rw [hrec, recordAll_removed]
    simp [pruneStart]
  rw [errorSum_num sf _ ht] at he
  have hb := quotient_sum_bounds sf (ss.take j)
  refine ⟨_, he, ?_, ?_⟩
  · linarith [hb.1]
  · rw [hrem]
    linarith [hb.2]

/-- C3 (amended) on the four-state automaton with equal frequencies and `pct = 1/4`. -/
theorem prune_fixed_error_bounds_witness :
    ((∀ s ∈ candidates smallNfa flatFreq, s ∈ StdMap.keys smallNfa.depth) →
        ∃ r, prune smallNfa flatFreq (1 / 4) = .ok r) ∧
      ∀ r, prune smallNfa flatFreq (1 / 4) = .ok r →
        ∃ q : ℚ, r.error = FVal.num q ∧ 0 ≤ q ∧ q ≤ (r.removed : ℚ) :=
  prune_fixed_error_bounds smallNfa flatFreq (1 / 4) (by norm_num) (by norm_num)
    (by decide)

/-! ### The error as a sum -/

theorem foldl_max_attained (l : List Nat) (t : Nat) :
    l.foldl max t = t ∨ l.foldl max t ∈ l := by
  induction l generalizing t with
  | nil => simp
  | cons a rest ih =>
    simp only [List.foldl_cons, List.mem_cons]
    rcases ih (max t a) with h | h
    · rw [h]
      rcases Nat.le_total t a with hta | hat
      · right; left
        exact Nat.max_eq_right hta
      · left
        exact Nat.max_eq_left hat
    · right; right
      exact h

/-- The value `total` is attained by an entry of a non-empty table. -/
theorem totalMax_attained (sf : StdMap Nat) (h : sf ≠ []) :
    ∃ k, (k, totalMax sf) ∈ sf := by
  unfold totalMax
  rcases foldl_max_attained (sf.map Prod.snd) 0 with h0 | hm
  · cases sf with
    | nil => exact absurd rfl h
    | cons p rest =>
      obtain ⟨k, f⟩ := p
      have hf : f ≤ List.foldl max 0 (List.map Prod.snd ((k, f) :: rest)) :=
        foldl_max_mem _ _ _ (by simp)
      rw [h0] at hf ⊢
      have : f = 0 := by omega
      subst this
      exact ⟨k, by simp⟩
  · obtain ⟨p, hp, hpe⟩ := List.mem_map.1 hm
    obtain ⟨k, f⟩ := p
    simp only at hpe
    rw [← hpe]
    exact ⟨k, hp⟩

/-- With a positive `total` each step of the loop leaves the running error finite and
at least as large as before. -/
theorem errorSum_step_le (sf : StdMap Nat) (total : Nat) (ht : 0 < total)
    (l : List State) (i : Nat) (hi : i < l.length) :
    FVal.leF (errorSum sf total (l.take i) (FVal.num 0))
      (errorSum sf total (l.take (i + 1)) (FVal.num 0)) = true := by
  obtain ⟨s, _, hs⟩ := errorSum_take_succ sf total l (FVal.num 0) i hi
  have hne : total ≠ 0 := Nat.pos_iff_ne_zero.1 ht
  rw [hs, errorSum_num sf total ht]
  simp only [FVal.div, if_neg hne, FVal.add, FVal.leF, decide_eq_true_eq]
  have : (0 : ℚ) ≤ ((StdMap.index 0 sf s : ℕ) : ℚ) / (total : ℚ) :=
    div_nonneg (Nat.cast_nonneg _) (Nat.cast_nonneg _)
  linarith

/-- C4: whenever `prune` returns (in either mode), the returned error is the sum, over
the keys of the merge map, of `freq(state) / total`, where `total` bounds the frequency
of EVERY key of the table (initial and final states included) and is attained by one
of them; when `total` is positive this is an ordinary finite sum.  The running error
never decreases from one step of the walk to the next, and with a positive `total`
each running error is at most the next one.  (With `total = 0` every quotient is
`0/0`, so the running error is `NaN` from the first step on.)  In fixed-ratio mode
`prune` returns whenever every candidate has a depth. -/
theorem prune_error_is_sum_over_removed (nfa : Nfa) (sf : StdMap Nat) (pct : ℚ)
    (hwf : StdMap.WF sf) :
    (0 < pct → pct ≤ 1 → (∀ s ∈ candidates nfa sf, s ∈ StdMap.keys nfa.depth) →
        ∃ r, prune nfa sf pct = .ok r) ∧
      ∀ r, prune nfa sf pct = .ok r →
        r.error = errorSum sf (totalMax sf) (StdMap.keys r.merge_map) (FVal.num 0) ∧
        (∀ k f, StdMap.find sf k = some f → f ≤ totalMax sf) ∧
        (sf ≠ [] → ∃ k, (k, totalMax sf) ∈ sf) ∧
        (0 < totalMax sf → r.error = FVal.num ((StdMap.keys r.merge_map).map
          (fun s => ((StdMap.index 0 sf s : ℕ) : ℚ) / (totalMax sf : ℚ))).sum) ∧
        ∃ ss, sortStates (cmpStates sf nfa.depth) (candidates nfa sf) = .ok ss ∧
          r.removed ≤ ss.length ∧
          errorSum sf (totalMax sf) (ss.take r.removed) (FVal.num 0) = r.error ∧
          ∀ i, i < r.removed →
            FVal.ltF (errorSum sf (totalMax sf) (ss.take (i + 1)) (FVal.num 0))
              (errorSum sf (totalMax sf) (ss.take i) (FVal.num 0)) = false ∧
            (0 < totalMax sf →
              FVal.leF (errorSum sf (totalMax sf) (ss.take i) (FVal.num 0))
                (errorSum sf (totalMax sf) (ss.take (i + 1)) (FVal.num 0)) = true) := by
  refine ⟨fun h0 h1 => prune_fixed_returns nfa sf pct h0 h1, ?_⟩
  intro r hr
  obtain ⟨ss, j, hss, hj, hrec⟩ := prune_ok_shape nfa sf pct r hr
  have hperm := sortStates_perm hss
  have hnd : (ss.take j).Nodup :=
    ((hperm.nodup_iff).2 (candidates_nodup nfa sf hwf)).sublist (List.take_sublist _ _)
  have hkeys : (StdMap.keys r.merge_map).Perm (ss.take j) := by
    rw [hrec]
    exact recordAll_keys_perm sf nfa.rules (totalMax sf) _ hnd
  have he : r.error = errorSum sf (totalMax sf) (ss.take j) (FVal.num 0) := by
    rw [hrec, recordAll_error]
    rfl
  have hrem : r.removed = j := by
    rw [hrec, recordAll_removed, List.length_take]
    simp [pruneStart, Nat.min_eq_left hj]
  have hsum : r.error =
      errorSum sf (totalMax sf) (StdMap.keys r.merge_map) (FVal.num 0) := by
    rw [he]
    exact (errorSum_perm sf (totalMax sf) hkeys (FVal.num 0)).symm
  refine ⟨hsum, fun k f hf => le_totalMax hf, totalMax_attained sf, ?_, ss, hss,
    by omega, by rw [hrem, he], ?_⟩
  · intro ht
    rw [hsum, errorSum_num sf _ ht]
    simp
  · intro i hi
    have hil : i < ss.length := by omega
    refine ⟨?_, fun ht => errorSum_step_le sf _ ht ss i hil⟩
    obtain ⟨s, _, hs⟩ := errorSum_take_succ sf (totalMax sf) ss (FVal.num 0) i hil
    rw [hs]
    exact fadd_div_not_lt _ _ _

/-- C4 on the four-state automaton with a rarely visited state and `pct = 1/2`. -/
theorem prune_error_is_sum_over_removed_witness :
    (0 < (1 / 2 : ℚ) → (1 / 2 : ℚ) ≤ 1 →
        (∀ s ∈ candidates smallNfa skewFreq, s ∈ StdMap.keys smallNfa.depth) →
        ∃ r, prune smallNfa skewFreq (1 / 2) = .ok r) ∧
      ∀ r, prune smallNfa skewFreq (1 / 2) = .ok r →
        r.error = errorSum skewFreq (totalMax skewFreq) (StdMap.keys r.merge_map)
          (FVal.num 0) ∧
        (∀ k f, StdMap.find skewFreq k = some f → f ≤ totalMax skewFreq) ∧
        (skewFreq ≠ [] → ∃ k, (k, totalMax skewFreq) ∈ skewFreq) ∧
        (0 < totalMax skewFreq → r.error = FVal.num ((StdMap.keys r.merge_map).map
          (fun s => ((StdMap.index 0 skewFreq s : ℕ) : ℚ) / (totalMax skewFreq : ℚ))).sum) ∧
        ∃ ss, sortStates (cmpStates skewFreq smallNfa.depth)
            (candidates smallNfa skewFreq) = .ok ss ∧
          r.removed ≤ ss.length ∧
          errorSum skewFreq (totalMax skewFreq) (ss.take r.removed) (FVal.num 0) = r.error ∧
          ∀ i, i < r.removed →
            FVal.ltF (errorSum skewFreq (totalMax skewFreq) (ss.take (i + 1)) (FVal.num 0))
              (errorSum skewFreq (totalMax skewFreq) (ss.take i) (FVal.num 0)) = false ∧
            (0 < totalMax skewFreq →
              FVal.leF (errorSum skewFreq (totalMax skewFreq) (ss.take i) (FVal.num 0))
                (errorSum skewFreq (totalMax skewFreq) (ss.take (i + 1)) (FVal.num 0))
                  = true) :=
  prune_error_is_sum_over_removed smallNfa skewFreq (1 / 2) (by decide)

/-! ## The merge map of `prune` -/

/-- Every entry of the merge map of a run of `prune` that returns is a recorded
candidate with its `rule_map[state]` value. -/
theorem prune_merge_map_entry (nfa : Nfa) (sf : StdMap Nat) (pct : ℚ) (r : PruneResult)
    (hr : prune nfa sf pct = .ok r) (k t : State)
    (hkt : StdMap.find r.merge_map k = some t) :
    k ∈ candidates nfa sf ∧ t = StdMap.index 0 nfa.rules k := by
  obtain ⟨ss, j, hss, _, hrec⟩ := prune_ok_shape nfa sf pct r hr
  rw [hrec, recordAll_find] at hkt
  by_cases hk : k ∈ ss.take j
  · rw [if_pos hk] at hkt
    injection hkt with hkt
    exact ⟨(sortStates_perm hss).subset (List.mem_of_mem_take hk), hkt.symm⟩
  · rw [if_neg hk] at hkt
    simp [pruneStart, StdMap.find] at hkt

/-- C5: in the merge map built by `prune` every key is a key of `freq`, is not the
initial state and is not a final state, and its target is `rule_map[key]`; when the
rule map sends every key of `freq` to a final state, that target is the key's entry in
the rule map and differs from the key.  In fixed-ratio mode `prune` returns whenever
every candidate has a depth. -/
theorem prune_merge_map_invariant (nfa : Nfa) (sf : StdMap Nat) (pct : ℚ) :
    (0 < pct → pct ≤ 1 → (∀ s ∈ candidates nfa sf, s ∈ StdMap.keys nfa.depth) →
        ∃ r, prune nfa sf pct = .ok r) ∧
      ∀ r, prune nfa sf pct = .ok r →
        ∀ k t, StdMap.find r.merge_map k = some t →
          k ∈ StdMap.keys sf ∧ k ≠ nfa.initial_state ∧ nfa.is_final k = false ∧
          t = StdMap.index 0 nfa.rules k ∧
          ((∀ s ∈ StdMap.keys sf, s ∈ StdMap.keys nfa.rules ∧
              nfa.is_final (StdMap.index 0 nfa.rules s) = true) →
            StdMap.find nfa.rules k = some t ∧ nfa.is_final t = true ∧ t ≠ k) := by
  refine ⟨fun h0 h1 => prune_fixed_returns nfa sf pct h0 h1, ?_⟩
  intro r hr k t hkt
  obtain ⟨hk, ht⟩ := prune_merge_map_entry nfa sf pct r hr k t hkt
  have hkeys := candidates_subset_keys nfa sf k hk
  obtain ⟨hnf, hni⟩ := candidates_not_final nfa sf k hk
  refine ⟨hkeys, hni, hnf, ht, ?_⟩
  intro hrule
  obtain ⟨hin, hfin⟩ := hrule k hkeys
  obtain ⟨u, hu⟩ := StdMap.find_of_mem_keys hin
  have hidx : StdMap.index 0 nfa.rules k = u := index_of_find hu
  rw [← ht] at hfin
  refine ⟨by rw [hu, ht, hidx], hfin, ?_⟩
  intro e
  rw [e, hnf] at hfin
  cases hfin

/-- C5 on the four-state automaton, whose rule map sends every state to the final
state 3: no key of the merge map maps to itself. -/
theorem prune_merge_map_invariant_witness :
    ∀ r, prune smallNfa skewFreq (1 / 2) = .ok r →
      ∀ k t, StdMap.find r.merge_map k = some t →
        StdMap.find smallNfa.rules k = some t ∧ smallNfa.is_final t = true ∧ t ≠ k :=
  fun r hr k t hkt =>
    ((prune_merge_map_invariant smallNfa skewFreq (1 / 2)).2 r hr k t hkt).2.2.2.2
      (by decide)

/-! ## The order of removal -/

/-- An insertion that returns has compared the new element with an element of its own
frequency, if the list has one: both then have a depth. -/
theorem insertSorted_tie {sf d : StdMap Nat} {x : State} {l r : List State}
    (hl : SortedBy sf d l) (h : insertSorted (cmpStates sf d) x l = .ok r)
    (hb : ∃ b ∈ l, StdMap.index 0 sf b = StdMap.index 0 sf x) :
    x ∈ StdMap.keys d ∧
      ∃ c ∈ l, StdMap.index 0 sf c = StdMap.index 0 sf x ∧ c ∈ StdMap.keys d := by
  induction l generalizing r with
  | nil =>
    obtain ⟨b, hb, _⟩ := hb
    simp at hb
  | cons y ys ih =>
    unfold insertSorted at h
    cases hc : cmpStates sf d x y with
    | error e => simp [hc, bind, Except.bind] at h
    | ok b0 =>
      obtain ⟨hval, _, _, htie⟩ := cmpStates_ok hc
      unfold SortedBy at hl
      have hy := (List.pairwise_cons.1 hl).1
      have hys := (List.pairwise_cons.1 hl).2
      by_cases hf : StdMap.index 0 sf x = StdMap.index 0 sf y
      · obtain ⟨dx, dy⟩ := htie hf
        exact ⟨dx, y, List.mem_cons_self _ _, hf.symm, dy⟩
      · obtain ⟨b, hbl, hbf⟩ := hb
        have hby : b ∈ ys := by
          rcases List.mem_cons.1 hbl with e | e
          · subst e
            exact absurd hbf.symm hf
          · exact e
        cases b0 with
        | true =>
          have hxy : before sf d x y := by simpa using hval.symm
          exfalso
          apply hy b hby
          unfold before at hxy ⊢
          omega
        | false =>
          cases hr : insertSorted (cmpStates sf d) x ys with
          | error e => simp [hc, hr, bind, Except.bind] at h
          | ok r' =>
            obtain ⟨dx, c, hcl, hcf, dc⟩ := ih hys hr ⟨b, hby, hbf⟩
            exact ⟨dx, c, List.mem_cons_of_mem _ hcl, hcf, dc⟩

/-- After a sort that returns, two different states of the same frequency both have
a depth: the comparator has read it. -/
theorem sortStates_tie {sf d : StdMap Nat} {l r : List State}
    (h : sortStates (cmpStates sf d) l = .ok r) :
    ∀ a ∈ r, ∀ b ∈ r, a ≠ b → StdMap.index 0 sf a = StdMap.index 0 sf b →
      a ∈ StdMap.keys d ∧ b ∈ StdMap.keys d := by
  induction l generalizing r with
  | nil =>
    simp [sortStates, pure, Except.pure] at h
    subst h
    intro a ha
    simp at ha
  | cons x xs ih =>
    unfold sortStates at h
    cases hr : sortStates (cmpStates sf d) xs with
    | error e => simp [hr, bind, Except.bind] at h
    | ok r' =>
      simp only [hr, bind, Except.bind] at h
      have ih' := ih hr
      have hperm := insertSorted_perm h
      have hsorted := sortStates_sorted hr
      have key : ∀ b ∈ r', b ≠ x → StdMap.index 0 sf b = StdMap.index 0 sf x →
          x ∈ StdMap.keys d ∧ b ∈ StdMap.keys d := by
        intro b hb hne hf
        obtain ⟨dx, c, hc, hcf, dc⟩ := insertSorted_tie hsorted h ⟨b, hb, hf⟩
        refine ⟨dx, ?_⟩
        by_cases hbc : b = c
        · rw [hbc]
          exact dc
        · exact (ih' b hb c hc hbc (by rw [hf, hcf])).1
      intro a ha b hb hne hf
      rcases List.mem_cons.1 (hperm.subset ha) with ea | ha'
      · rcases List.mem_cons.1 (hperm.subset hb) with eb | hb'
        · exact absurd (ea.trans eb.symm) hne
        · subst ea
          exact key b hb' (fun e => hne e.symm) hf.symm
      · rcases List.mem_cons.1 (hperm.subset hb) with eb | hb'
        · subst eb
          exact (key a ha' hne hf).symm
        · exact ih' a ha' b hb' hne hf

/-- C6: whenever `prune` returns, the removed states are the first `removed` entries of
a list that holds exactly the candidates, ordered by ascending frequency and, among
equal frequencies, by descending depth.  So for every removed candidate `a` and every
retained candidate `b`: `freq(a) < freq(b)`, or `freq(a) = freq(b)` and both have a
depth with `depth(a) >= depth(b)`.  In fixed-ratio mode `prune` returns whenever every
candidate has a depth. -/
theorem prune_removes_least_visited_first (nfa : Nfa) (sf : StdMap Nat) (pct : ℚ) :
    (0 < pct → pct ≤ 1 → (∀ s ∈ candidates nfa sf, s ∈ StdMap.keys nfa.depth) →
        ∃ r, prune nfa sf pct = .ok r) ∧
      ∀ r, prune nfa sf pct = .ok r →
        (∃ ss : List State, ss.Perm (candidates nfa sf) ∧ SortedBy sf nfa.depth ss ∧
          r.removed ≤ ss.length ∧
          ∀ s, s ∈ StdMap.keys r.merge_map ↔ s ∈ ss.take r.removed) ∧
        ∀ a ∈ StdMap.keys r.merge_map, ∀ b ∈ candidates nfa sf,
          b ∉ StdMap.keys r.merge_map →
          ∃ fa fb, StdMap.find sf a = some fa ∧ StdMap.find sf b = some fb ∧
            (fa < fb ∨ (fa = fb ∧ ∃ da db, StdMap.find nfa.depth a = some da ∧
              StdMap.find nfa.depth b = some db ∧ db ≤ da)) := by
  refine ⟨fun h0 h1 => prune_fixed_returns nfa sf pct h0 h1, ?_⟩
  intro r hr
  obtain ⟨ss, j, hss, hj, hrec⟩ := prune_ok_shape nfa sf pct r hr
  have hperm := sortStates_perm hss
  have hsorted := sortStates_sorted hss
  have hrem : r.removed = j := by
    rw [hrec, recordAll_removed, List.length_take]
    simp [pruneStart, Nat.min_eq_left hj]
  have hmem : ∀ s, s ∈ StdMap.keys r.merge_map ↔ s ∈ ss.take j := by
    intro s
    rw [hrec, recordAll_keys]
    simp [pruneStart, StdMap.keys]
  refine ⟨⟨ss, hperm, hsorted, by omega, by rw [hrem]; exact hmem⟩, ?_⟩
  intro a ha b hb hnb
  have ha' : a ∈ ss.take j := (hmem a).1 ha
  have hb' : b ∈ ss.drop j := by
    have hbs : b ∈ ss.take j ++ ss.drop j := by
      rw [List.take_append_drop]
      exact hperm.symm.subset hb
    rcases List.mem_append.1 hbs with e | e
    · exact absurd ((hmem b).2 e) hnb
    · exact e
  have hab : ¬ before sf nfa.depth b a := by
    have hsplit : SortedBy sf nfa.depth (ss.take j ++ ss.drop j) := by
      rw [List.take_append_drop]
      exact hsorted
    exact (List.pairwise_append.1 hsplit).2.2 a ha' b hb'
  have has : a ∈ ss := List.mem_of_mem_take ha'
  have hbs : b ∈ ss := List.mem_of_mem_drop hb'
  obtain ⟨fa, hfa⟩ := StdMap.find_of_mem_keys
    (candidates_subset_keys nfa sf a (hperm.subset has))
  obtain ⟨fb, hfb⟩ := StdMap.find_of_mem_keys (candidates_subset_keys nfa sf b hb)
  have ia : StdMap.index 0 sf a = fa := index_of_find hfa
  have ib : StdMap.index 0 sf b = fb := index_of_find hfb
  refine ⟨fa, fb, hfa, hfb, ?_⟩
  by_cases hlt : fa < fb
  · exact Or.inl hlt
  · right
    have hne : a ≠ b := by
      intro e
      apply hnb
      rw [← e]
      exact ha
    unfold before at hab
    rw [ia, ib] at hab
    have hfe : fa = fb := by omega
    obtain ⟨da', db'⟩ := sortStates_tie hss a has b hbs hne (by rw [ia, ib, hfe])
    obtain ⟨da, hda⟩ := StdMap.find_of_mem_keys da'
    obtain ⟨db, hdb⟩ := StdMap.find_of_mem_keys db'
    have ja : StdMap.index 0 nfa.depth a = da := index_of_find hda
    have jb : StdMap.index 0 nfa.depth b = db := index_of_find hdb
    rw [ja, jb] at hab
    exact ⟨hfe, da, db, hda, hdb, by omega⟩

/-- C6 on the four-state automaton with equal frequencies and `pct = 3/4`. -/
theorem prune_removes_least_visited_first_witness :
    ∀ r, prune smallNfa flatFreq (3 / 4) = .ok r →
      ∀ a ∈ StdMap.keys r.merge_map, ∀ b ∈ candidates smallNfa flatFreq,
        b ∉ StdMap.keys r.merge_map →
        ∃ fa fb, StdMap.find flatFreq a = some fa ∧ StdMap.find flatFreq b = some fb ∧
          (fa < fb ∨ (fa = fb ∧ ∃ da db, StdMap.find smallNfa.depth a = some da ∧
            StdMap.find smallNfa.depth b = some db ∧ db ≤ da)) :=
  fun r hr =>
    ((prune_removes_least_visited_first smallNfa flatFreq (3 / 4)).2 r hr).2

/-! ## The scenario run of `merge` -/

theorem merge_chain_eval :
    merge chainNfa chainFreq (95 / 100) =
      .ok { cnt_merged := 2, mapping := [(2, 1), (3, 1)] } := by
  simp [merge, chainNfa, chainFreq, mergeLoop, visitState, visitSucc, sucStates,
    setInsert, setErase, StdMap.index, StdMap.find, StdMap.at_, StdMap.insert,
    Nfa.is_final, List.foldlM, bind, Except.bind, pure, Except.pure]
  norm_num [merge, chainNfa, chainFreq, mergeLoop, visitState, visitSucc, sucStates,
    setInsert, setErase, StdMap.index, StdMap.find, StdMap.at_, StdMap.insert,
    Nfa.is_final, List.foldlM, bind, Except.bind, pure, Except.pure]

/-! ## Facts about `merge` -/

theorem mem_setInsert (s : List State) (x a : State) :
    a ∈ setInsert s x ↔ a = x ∨ a ∈ s := by
  induction s with
  | nil => simp [setInsert]
  | cons y ys ih =>
    unfold setInsert
    by_cases h1 : x < y
    · simp [h1]
    · by_cases h2 : x = y
      · subst h2
        simp
      · simp only [if_neg h1, if_neg h2, List.mem_cons, ih]
        tauto

/-- A property kept by every step of a loop holds when the loop returns. -/
theorem foldlM_preserves {σ α : Type} (f : σ → α → Except Failure σ) (P : σ → Prop)
    (l : List α) (hstep : ∀ s a s', a ∈ l → P s → f s a = .ok s' → P s')
    (s s' : σ) (hs : P s) (h : l.foldlM f s = .ok s') : P s' := by
  induction l generalizing s with
  | nil =>
    simp [List.foldlM, pure, Except.pure] at h
    rw [← h]
    exact hs
  | cons a rest ih =>
    simp only [List.foldlM, bind, Except.bind] at h
    cases hf : f s a with
    | error e => simp [hf] at h
    | ok s1 =>
      simp only [hf] at h
      exact ih (fun s a s' ha => hstep s a s' (List.mem_cons_of_mem _ ha)) s1
        (hstep s a s1 (List.mem_cons_self _ _) hs hf) h

theorem visitSucc_inv (nfa : Nfa) (sf : StdMap Nat) (th : ℚ) (state : State) (freq : Nat)
    (st st' : MergeState) (ns : State)
    (hinv : MergeInv nfa st ∧ state ∈ st.visited)
    (h : visitSucc nfa sf th nfa.suc state freq st ns = .ok st') :
    MergeInv nfa st' ∧ state ∈ st'.visited := by
  obtain ⟨hinv, hstate⟩ := hinv
  unfold visitSucc at h
  by_cases hv : ns ∈ st.visited
  · rw [if_pos hv] at h
    injection h with h
    rw [← h]
    exact ⟨hinv, hstate⟩
  · rw [if_neg hv] at h
    cases hf : StdMap.at_ sf ns with
    | error e => simp [hf, bind, Except.bind] at h
    | ok f =>
      simp only [hf, bind, Except.bind, pure, Except.pure] at h
      injection h with h
      by_cases hc : ((StdMap.index [] nfa.suc ns).all (fun x => !nfa.is_final x) &&
          decide ((f : ℚ) / (freq : ℚ) ≥ th)) = true
      · rw [if_pos hc] at h
        have hguard : ∀ x ∈ StdMap.index [] nfa.suc ns, nfa.is_final x = false := by
          have hand : (StdMap.index [] nfa.suc ns).all (fun x => !nfa.is_final x) = true ∧
              decide ((f : ℚ) / (freq : ℚ) ≥ th) = true := by
            simpa only [Bool.and_eq_true] using hc
          have hall := List.all_eq_true.1 hand.1
          intro x hx
          simpa using hall x hx
        -- the target: the representative of `state`, or `state` itself
        have htarget : ∃ t0, (match StdMap.find st.mapping state with
              | some target => StdMap.insert st.mapping ns target
              | none => StdMap.insert st.mapping ns state) = StdMap.insert st.mapping ns t0 ∧
            t0 ∈ st.visited ∧ StdMap.find st.mapping t0 = none := by
          cases hm : StdMap.find st.mapping state with
          | some t =>
            obtain ⟨_, ht, htn, _⟩ := hinv.entries state t hm
            exact ⟨t, rfl, ht, htn⟩
          | none => exact ⟨state, rfl, hstate, hm⟩
        obtain ⟨t0, hmap, ht0, ht0n⟩ := htarget
        rw [hmap] at h
        rw [← h]
        have hns0 : ns ≠ t0 := fun e => hv (e ▸ ht0)
        refine ⟨⟨?_, ?_, ?_⟩, ?_⟩
        · exact (mem_setInsert _ _ _).2 (Or.inr hinv.init_visited)
        · intro s hs
          rcases (mem_setInsert _ _ _).1 hs with e | e
          · exact (mem_setInsert _ _ _).2 (Or.inl e)
          · exact (mem_setInsert _ _ _).2 (Or.inr (hinv.next_visited s e))
        · intro k t hkt
          simp only [StdMap.find_insert] at hkt ⊢
          by_cases hk : k = ns
          · rw [if_pos hk] at hkt
            injection hkt with hkt
            subst hkt
            subst hk
            refine ⟨(mem_setInsert _ _ _).2 (Or.inl rfl),
              (mem_setInsert _ _ _).2 (Or.inr ht0), ?_, ?_, hguard⟩
            · rw [if_neg (fun e => hns0 e.symm)]
              exact ht0n
            · intro e
              exact hv (e ▸ hinv.init_visited)
          · rw [if_neg hk] at hkt
            obtain ⟨hkv, htv, htn, hki, hkg⟩ := hinv.entries k t hkt
            refine ⟨(mem_setInsert _ _ _).2 (Or.inr hkv),
              (mem_setInsert _ _ _).2 (Or.inr htv), ?_, hki, hkg⟩
            rw [if_neg (fun (e : t = ns) => hv (e ▸ htv))]
            exact htn
        · exact (mem_setInsert _ _ _).2 (Or.inr hstate)
      · rw [if_neg hc] at h
        rw [← h]
        refine ⟨⟨?_, ?_, ?_⟩, ?_⟩
        · exact (mem_setInsert _ _ _).2 (Or.inr hinv.init_visited)
        · intro s hs
          rcases (mem_setInsert _ _ _).1 hs with e | e
          · exact (mem_setInsert _ _ _).2 (Or.inl e)
          · exact (mem_setInsert _ _ _).2 (Or.inr (hinv.next_visited s e))
        · intro k t hkt
          obtain ⟨hkv, htv, htn, hki, hkg⟩ := hinv.entries k t hkt
          exact ⟨(mem_setInsert _ _ _).2 (Or.inr hkv),
            (mem_setInsert _ _ _).2 (Or.inr htv), htn, hki, hkg⟩
        · exact (mem_setInsert _ _ _).2 (Or.inr hstate)

theorem visitSucc_visited_mono (nfa : Nfa) (sf : StdMap Nat) (th : ℚ)
    (suc : StdMap (List State)) (state : State) (freq : Nat) (st st' : MergeState)
    (ns : State) (h : visitSucc nfa sf th suc state freq st ns = .ok st') :
    ∀ a ∈ st.visited, a ∈ st'.visited := by
  unfold visitSucc at h
  by_cases hv : ns ∈ st.visited
  · rw [if_pos hv] at h
    injection h with h
    rw [← h]
    exact fun a ha => ha
  · rw [if_neg hv] at h
    cases hf : StdMap.at_ sf ns with
    | error e => simp [hf, bind, Except.bind] at h
    | ok f =>
      simp only [hf, bind, Except.bind, pure, Except.pure] at h
      injection h with h
      rw [← h]
      intro a ha
      refine (mem_setInsert _ _ _).2 (Or.inr ?_)
      split
      · exact ha
      · exact ha

theorem visitState_inv (nfa : Nfa) (sf : StdMap Nat) (th : ℚ) (A : List State)
    (st st' : MergeState) (state : State) (hs : state ∈ A)
    (hinv : MergeInv nfa st ∧ ∀ a ∈ A, a ∈ st.visited)
    (h : visitState nfa sf th nfa.suc st state = .ok st') :
    MergeInv nfa st' ∧ ∀ a ∈ A, a ∈ st'.visited := by
  unfold visitState at h
  cases hf : StdMap.at_ sf state with
  | error e => simp [hf, bind, Except.bind] at h
  | ok freq =>
    simp only [hf, bind, Except.bind] at h
    by_cases hz : freq = 0
    · rw [if_pos hz] at h
      injection h with h
      rw [← h]
      exact hinv
    · rw [if_neg hz] at h
      have := foldlM_preserves (visitSucc nfa sf th nfa.suc state freq)
        (fun s => (MergeInv nfa s ∧ state ∈ s.visited) ∧ ∀ a ∈ A, a ∈ s.visited)
        (StdMap.index [] nfa.suc state)
        (fun s a s' _ hp hstep =>
          ⟨visitSucc_inv nfa sf th state freq s s' a hp.1 hstep,
            fun b hb => visitSucc_visited_mono nfa sf th nfa.suc state freq s s' a hstep b
              (hp.2 b hb)⟩)
        st st' ⟨⟨hinv.1, hinv.2 state hs⟩, hinv.2⟩ h
      exact ⟨this.1.1, this.2⟩

theorem mergeLoop_inv (nfa : Nfa) (sf : StdMap Nat) (th : ℚ) (fuel : Nat)
    (actual : List State) (st st' : MergeState)
    (hinv : MergeInv nfa st) (hact : ∀ a ∈ actual, a ∈ st.visited)
    (h : mergeLoop nfa sf th nfa.suc fuel actual st = .ok st') : MergeInv nfa st' := by
  induction fuel generalizing actual st with
  | zero =>
    cases actual with
    | nil =>
      simp only [mergeLoop] at h
      injection h with h
      rw [← h]
      exact hinv
    | cons a as => simp [mergeLoop] at h
  | succ fuel ih =>
    cases actual with
    | nil =>
      simp only [mergeLoop] at h
      injection h with h
      rw [← h]
      exact hinv
    | cons a as =>
      simp only [mergeLoop, bind, Except.bind] at h
      cases hr : List.foldlM (visitState nfa sf th nfa.suc) { st with next := [] } (a :: as) with
      | error e => simp [hr] at h
      | ok st1 =>
        simp only [hr] at h
        have hstart : MergeInv nfa { st with next := [] } :=
          ⟨hinv.init_visited, by intro s hs; simp at hs, hinv.entries⟩
        have := foldlM_preserves (visitState nfa sf th nfa.suc)
          (fun s => MergeInv nfa s ∧ ∀ b ∈ a :: as, b ∈ s.visited) (a :: as)
          (fun s b s' hb hp hstep => visitState_inv nfa sf th (a :: as) s s' b hb hp hstep)
          _ st1 ⟨hstart, hact⟩ hr
        exact ih st1.next st1 this.1 this.1.next_visited h

/-- The entries of the map built by a run of `merge` that returns. -/
theorem merge_entries (nfa : Nfa) (sf : StdMap Nat) (th : ℚ) (r : MergeResult)
    (h : merge nfa sf th = .ok r) :
    ∀ k t, StdMap.find r.mapping k = some t →
      StdMap.find r.mapping t = none ∧ k ≠ nfa.initial_state ∧
      ∀ x ∈ StdMap.index [] nfa.suc k, nfa.is_final x = false := by
  unfold merge at h
  simp only at h
  cases hl : mergeLoop nfa sf th nfa.suc ((sucStates nfa.suc).length + 1)
      (setErase (StdMap.index [] nfa.suc nfa.initial_state) nfa.initial_state)
      { mapping := [], cnt_merged := 0,
        visited := setInsert (StdMap.index [] nfa.suc nfa.initial_state) nfa.initial_state,
        next := [] } with
  | error e => simp [hl] at h
  | ok st =>
    simp only [hl, List.any_nil] at h
    injection h with h
    have hstart : MergeInv nfa
        { mapping := [], cnt_merged := 0,
          visited := setInsert (StdMap.index [] nfa.suc nfa.initial_state)
            nfa.initial_state,
          next := [] } :=
      ⟨(mem_setInsert _ _ _).2 (Or.inl rfl), by intro s hs; simp at hs,
        by intro k t hkt; simp [StdMap.find] at hkt⟩
    have hinv := mergeLoop_inv nfa sf th _ _ _ st hstart (by
      intro a ha
      refine (mem_setInsert _ _ _).2 (Or.inr ?_)
      exact (List.mem_filter.1 ha).1) hl
    intro k t hkt
    rw [← h] at hkt ⊢
    obtain ⟨_, _, htn, hki, hkg⟩ := hinv.entries k t hkt
    exact ⟨htn, hki, hkg⟩

/-! ### The loop of `merge` ends -/

theorem unvisited_le_length (U V : List State) : unvisited U V ≤ U.length := by
  unfold unvisited
  exact Nat.le_trans (Finset.card_filter_le _ _) (List.toFinset_card_le U)

theorem unvisited_lt {U V V' : List State} (hsub : ∀ v ∈ V, v ∈ V') {x : State}
    (hx : x ∈ U) (hxV : x ∉ V) (hxV' : x ∈ V') : unvisited U V' < unvisited U V := by
  unfold unvisited
  apply Finset.card_lt_card
  rw [Finset.ssubset_iff_of_subset]
  · exact ⟨x, by simp [hx, hxV], by simp [hxV']⟩
  · intro a ha
    simp only [Finset.mem_filter, List.mem_toFinset] at ha ⊢
    exact ⟨ha.1, fun h => ha.2 (hsub a h)⟩

theorem index_subset_sucStates (suc : StdMap (List State)) (s x : State)
    (hx : x ∈ StdMap.index [] suc s) : x ∈ sucStates suc := by
  unfold StdMap.index at hx
  cases hf : StdMap.find suc s with
  | none => simp [hf] at hx
  | some l =>
    simp only [hf] at hx
    unfold sucStates
    exact List.mem_flatMap.2 ⟨(s, l), StdMap.find_mem hf, hx⟩

/-- An error of a loop is an error of one of its steps. -/
theorem foldlM_error {σ α : Type} (f : σ → α → Except Failure σ) (Q : Failure → Prop)
    (l : List α) (hstep : ∀ s a e, a ∈ l → f s a = .error e → Q e)
    (s : σ) (e : Failure) (h : l.foldlM f s = .error e) : Q e := by
  induction l generalizing s with
  | nil => simp [List.foldlM, pure, Except.pure] at h
  | cons a rest ih =>
    simp only [List.foldlM, bind, Except.bind] at h
    cases hf : f s a with
    | error e' =>
      simp only [hf] at h
      injection h with h
      rw [← h]
      exact hstep s a e' (List.mem_cons_self _ _) hf
    | ok s1 =>
      simp only [hf] at h
      exact ih (fun s a e ha => hstep s a e (List.mem_cons_of_mem _ ha)) s1 h

theorem at_error {V : Type} {m : StdMap V} {k : State} {e : Failure}
    (h : StdMap.at_ m k = .error e) : e = .outOfRange ∧ k ∉ StdMap.keys m := by
  unfold StdMap.at_ at h
  cases hf : StdMap.find m k with
  | some v => simp [hf] at h
  | none =>
    simp only [hf] at h
    injection h with h
    refine ⟨h.symm, ?_⟩
    intro hk
    obtain ⟨v, hv⟩ := StdMap.find_of_mem_keys hk
    rw [hf] at hv
    cases hv

theorem visitSucc_error (nfa : Nfa) (sf : StdMap Nat) (th : ℚ) (state : State) (freq : Nat)
    (st : MergeState) (ns : State) (e : Failure) (hns : ns ∈ sucStates nfa.suc)
    (h : visitSucc nfa sf th nfa.suc state freq st ns = .error e) :
    MissingFreq nfa sf e := by
  unfold visitSucc at h
  by_cases hv : ns ∈ st.visited
  · rw [if_pos hv] at h
    cases h
  · rw [if_neg hv] at h
    cases hf : StdMap.at_ sf ns with
    | error e' =>
      simp only [hf, bind, Except.bind] at h
      injection h with h
      obtain ⟨h1, h2⟩ := at_error hf
      exact ⟨h ▸ h1, ns, hns, h2⟩
    | ok f => simp [hf, bind, Except.bind, pure, Except.pure] at h

theorem visitState_error (nfa : Nfa) (sf : StdMap Nat) (th : ℚ) (st : MergeState)
    (state : State) (e : Failure) (hs : state ∈ sucStates nfa.suc)
    (h : visitState nfa sf th nfa.suc st state = .error e) : MissingFreq nfa sf e := by
  unfold visitState at h
  cases hf : StdMap.at_ sf state with
  | error e' =>
    simp only [hf, bind, Except.bind] at h
    injection h with h
    obtain ⟨h1, h2⟩ := at_error hf
    exact ⟨h ▸ h1, state, hs, h2⟩
  | ok freq =>
    simp only [hf, bind, Except.bind] at h
    by_cases hz : freq = 0
    · rw [if_pos hz] at h
      cases h
    · rw [if_neg hz] at h
      exact foldlM_error (visitSucc nfa sf th nfa.suc state freq) (MissingFreq nfa sf)
        (StdMap.index [] nfa.suc state)
        (fun s a e ha hstep => visitSucc_error nfa sf th state freq s a e
          (index_subset_sucStates nfa.suc state a ha) hstep) st e h

theorem visitSucc_round (nfa : Nfa) (sf : StdMap Nat) (th : ℚ) (state : State) (freq : Nat)
    (V0 : List State) (st st' : MergeState) (ns : State) (hns : ns ∈ sucStates nfa.suc)
    (hinv : RoundInv nfa V0 st)
    (h : visitSucc nfa sf th nfa.suc state freq st ns = .ok st') : RoundInv nfa V0 st' := by
  have hmono := visitSucc_visited_mono nfa sf th nfa.suc state freq st st' ns h
  unfold visitSucc at h
  by_cases hv : ns ∈ st.visited
  · rw [if_pos hv] at h
    injection h with h
    rw [← h]
    exact hinv
  · rw [if_neg hv] at h
    cases hf : StdMap.at_ sf ns with
    | error e => simp [hf, bind, Except.bind] at h
    | ok f =>
      simp only [hf, bind, Except.bind, pure, Except.pure] at h
      injection h with h
      refine ⟨?_, fun v hv0 => hmono v (hinv.2 v hv0)⟩
      intro x hx
      have hnext : x = ns ∨ x ∈ st.next := by
        rw [← h] at hx
        simp only at hx
        rcases (mem_setInsert _ _ _).1 hx with e | e
        · exact Or.inl e
        · right
          revert e
          split
          · exact fun e => e
          · exact fun e => e
      have hvis : ns ∈ st'.visited := by
        rw [← h]
        exact (mem_setInsert _ _ _).2 (Or.inl rfl)
      rcases hnext with e | e
      · subst e
        exact ⟨hns, fun h0 => hv (hinv.2 x h0), hvis⟩
      · obtain ⟨h1, h2, h3⟩ := hinv.1 x e
        exact ⟨h1, h2, hmono x h3⟩

theorem visitState_round (nfa : Nfa) (sf : StdMap Nat) (th : ℚ) (V0 : List State)
    (st st' : MergeState) (state : State) (hinv : RoundInv nfa V0 st)
    (h : visitState nfa sf th nfa.suc st state = .ok st') : RoundInv nfa V0 st' := by
  unfold visitState at h
  cases hf : StdMap.at_ sf state with
  | error e => simp [hf, bind, Except.bind] at h
  | ok freq =>
    simp only [hf, bind, Except.bind] at h
    by_cases hz : freq = 0
    · rw [if_pos hz] at h
      injection h with h
      rw [← h]
      exact hinv
    · rw [if_neg hz] at h
      exact foldlM_preserves (visitSucc nfa sf th nfa.suc state freq) (RoundInv nfa V0)
        (StdMap.index [] nfa.suc state)
        (fun s a s' ha hp hstep => visitSucc_round nfa sf th state freq V0 s s' a
          (index_subset_sucStates nfa.suc state a ha) hp hstep) st st' hinv h

/-- With enough rounds allowed the loop of `merge` does not run out of them: it
returns, or it fails because a state of a successor set has no frequency. -/
theorem mergeLoop_error (nfa : Nfa) (sf : StdMap Nat) (th : ℚ) (fuel : Nat)
    (actual : List State) (st : MergeState) (e : Failure)
    (hfuel : unvisited (sucStates nfa.suc) st.visited < fuel)
    (hact : ∀ a ∈ actual, a ∈ sucStates nfa.suc)
    (h : mergeLoop nfa sf th nfa.suc fuel actual st = .error e) : MissingFreq nfa sf e := by
  induction fuel generalizing actual st with
  | zero => omega
  | succ fuel ih =>
    cases actual with
    | nil => simp [mergeLoop] at h
    | cons a as =>
      simp only [mergeLoop, bind, Except.bind] at h
      cases hr : List.foldlM (visitState nfa sf th nfa.suc) { st with next := [] } (a :: as) with
      | error e' =>
        simp only [hr] at h
        injection h with h
        rw [← h]
        exact foldlM_error (visitState nfa sf th nfa.suc) (MissingFreq nfa sf) (a :: as)
          (fun s b e hb hstep => visitState_error nfa sf th s b e (hact b hb) hstep) _ e' hr
      | ok st1 =>
        simp only [hr] at h
        have hround : RoundInv nfa st.visited st1 :=
          foldlM_preserves (visitState nfa sf th nfa.suc) (RoundInv nfa st.visited) (a :: as)
            (fun s b s' _ hp hstep => visitState_round nfa sf th st.visited s s' b hp hstep)
            { st with next := [] } st1
            ⟨by intro x hx; simp at hx, fun v hv => hv⟩ hr
        cases hn : st1.next with
        | nil =>
          rw [hn] at h
          simp [mergeLoop] at h
        | cons x xs =>
          have hx : x ∈ st1.next := by rw [hn]; exact List.mem_cons_self _ _
          obtain ⟨hxU, hxV, hxV'⟩ := hround.1 x hx
          have hlt := unvisited_lt hround.2 hxU hxV hxV'
          exact ih st1.next st1 (by omega) (fun b hb => (hround.1 b hb).1) h

/-- A run of `merge` returns, or fails with `out_of_range` because a state of a
successor set has no frequency. -/
theorem merge_error (nfa : Nfa) (sf : StdMap Nat) (th : ℚ) (e : Failure)
    (h : merge nfa sf th = .error e) : MissingFreq nfa sf e := by
  unfold merge at h
  simp only at h
  cases hl : mergeLoop nfa sf th nfa.suc ((sucStates nfa.suc).length + 1)
      (setErase (StdMap.index [] nfa.suc nfa.initial_state) nfa.initial_state)
      { mapping := [], cnt_merged := 0,
        visited := setInsert (StdMap.index [] nfa.suc nfa.initial_state) nfa.initial_state,
        next := [] } with
  | ok st => simp [hl] at h
  | error e' =>
    simp only [hl] at h
    injection h with h
    rw [← h]
    refine mergeLoop_error nfa sf th _ _ _ e' ?_ ?_ hl
    · exact Nat.lt_succ_of_le (unvisited_le_length _ _)
    · intro a ha
      exact index_subset_sucStates nfa.suc nfa.initial_state a (List.mem_filter.1 ha).1

/-- A run of `merge` returns when every state of a successor set has a frequency. -/
theorem merge_returns (nfa : Nfa) (sf : StdMap Nat) (th : ℚ)
    (hcover : ∀ s ∈ sucStates nfa.suc, s ∈ StdMap.keys sf) :
    ∃ r, merge nfa sf th = .ok r := by
  cases h : merge nfa sf th with
  | ok r => exact ⟨r, rfl⟩
  | error e =>
    obtain ⟨_, s, hs, hns⟩ := merge_error nfa sf th e h
    exact absurd (hcover s hs) hns

/-! ## The merge map of `merge` -/

/-- C7: a run of `merge` returns when every state of a successor set has a frequency
(its only failure is `out_of_range` for such a state without one), and no state that
it records as a merge source has a final state among its successors. -/
theorem merge_source_has_no_final_successor (nfa : Nfa) (sf : StdMap Nat) (th : ℚ) :
    ((∀ s ∈ sucStates nfa.suc, s ∈ StdMap.keys sf) → ∃ r, merge nfa sf th = .ok r) ∧
      (∀ e, merge nfa sf th = .error e → e = .outOfRange) ∧
      ∀ r, merge nfa sf th = .ok r →
        ∀ k t, StdMap.find r.mapping k = some t →
          ∀ x ∈ StdMap.index [] nfa.suc k, nfa.is_final x = false :=
  ⟨merge_returns nfa sf th, fun e h => (merge_error nfa sf th e h).1,
    fun r hr k t hkt => (merge_entries nfa sf th r hr k t hkt).2.2⟩

/-- C7 on the chain scenario, where every state has a frequency: `merge` returns. -/
theorem merge_source_has_no_final_successor_witness :
    ∃ r, merge chainNfa chainFreq (95 / 100) = .ok r ∧
      ∀ k t, StdMap.find r.mapping k = some t →
        ∀ x ∈ StdMap.index [] chainNfa.suc k, chainNfa.is_final x = false := by
  obtain ⟨h1, _, h3⟩ := merge_source_has_no_final_successor chainNfa chainFreq (95 / 100)
  obtain ⟨r, hr⟩ := h1 (by decide)
  exact ⟨r, hr, h3 r hr⟩

/-- C8: a run of `merge` returns when every state of a successor set has a frequency
(its only failure is `out_of_range` for such a state without one), and in the map it
builds no key maps to itself and no target is a key: every source is one hop from its
representative. -/
theorem merge_map_resolved (nfa : Nfa) (sf : StdMap Nat) (th : ℚ) :
    ((∀ s ∈ sucStates nfa.suc, s ∈ StdMap.keys sf) → ∃ r, merge nfa sf th = .ok r) ∧
      (∀ e, merge nfa sf th = .error e → e = .outOfRange) ∧
      ∀ r, merge nfa sf th = .ok r →
        ∀ k t, StdMap.find r.mapping k = some t →
          t ≠ k ∧ t ∉ StdMap.keys r.mapping ∧ StdMap.find r.mapping t = none := by
  refine ⟨merge_returns nfa sf th, fun e h => (merge_error nfa sf th e h).1, ?_⟩
  intro r hr k t hkt
  have htn := (merge_entries nfa sf th r hr k t hkt).1
  refine ⟨?_, ?_, htn⟩
  · intro e
    rw [e, hkt] at htn
    cases htn
  · intro hmem
    obtain ⟨v, hv⟩ := StdMap.find_of_mem_keys hmem
    rw [htn] at hv
    cases hv

/-- C8 on the chain scenario, where every state has a frequency: `merge` returns. -/
theorem merge_map_resolved_witness :
    ∃ r, merge chainNfa chainFreq (95 / 100) = .ok r ∧
      ∀ k t, StdMap.find r.mapping k = some t →
        t ≠ k ∧ t ∉ StdMap.keys r.mapping ∧ StdMap.find r.mapping t = none := by
  obtain ⟨h1, _, h3⟩ := merge_map_resolved chainNfa chainFreq (95 / 100)
  obtain ⟨r, hr⟩ := h1 (by decide)
  exact ⟨r, hr, h3 r hr⟩

/-- The initial state is never a merge source. -/
theorem merge_initial_not_source (nfa : Nfa) (sf : StdMap Nat) (th : ℚ) (r : MergeResult)
    (hr : merge nfa sf th = .ok r) : nfa.initial_state ∉ StdMap.keys r.mapping := by
  intro hmem
  obtain ⟨t, ht⟩ := StdMap.find_of_mem_keys hmem
  exact (merge_entries nfa sf th r hr _ t ht).2.1 rfl

/-- C9 (the run that breaks it): on the chain 0 -> 1 -> 2 with final state 2 and equal
frequencies, `merge` with threshold 0.995 records the FINAL state 2 as a merge source
(merged into state 1): the guard looks at the successors of a state, not at the state
itself. -/
theorem merge_records_final_state :
    merge shortNfa shortFreq (995 / 1000) = .ok { cnt_merged := 1, mapping := [(2, 1)] } ∧
      shortNfa.is_final 2 = true ∧
      StdMap.find [((2 : State), (1 : State))] 2 = some 1 := by
  refine ⟨?_, by decide, by decide⟩
  simp [merge, shortNfa, shortFreq, mergeLoop, visitState, visitSucc, sucStates,
    setInsert, setErase, StdMap.index, StdMap.find, StdMap.at_, StdMap.insert,
    Nfa.is_final, List.foldlM, bind, Except.bind, pure, Except.pure]
  norm_num [merge, shortNfa, shortFreq, mergeLoop, visitState, visitSucc, sucStates,
    setInsert, setErase, StdMap.index, StdMap.find, StdMap.at_, StdMap.insert,
    Nfa.is_final, List.foldlM, bind, Except.bind, pure, Except.pure]

/-- C10 (as stated, refuted): in the scenario `merge` with threshold 0.95 does not
record state 1, does not merge state 2 into state 0, and its count is not 3. -/
theorem merge_chain_not_into_initial :
    ∃ r, merge chainNfa chainFreq (95 / 100) = .ok r ∧ r.cnt_merged ≠ 3 ∧
      StdMap.find r.mapping 1 = none ∧ StdMap.find r.mapping 2 ≠ some 0 ∧
      StdMap.find r.mapping 3 ≠ some 0 := by
  refine ⟨_, merge_chain_eval, by decide, by decide, by decide, by decide⟩

/-- C10 (amended): in the scenario `merge` with threshold 0.95 records exactly the
states 2 and 3, both merged into state 1 (merged count 2); state 1, a successor of the
initial state, is visited from the start and is not recorded, and state 4 is not
recorded. -/
theorem merge_chain_scenario :
    merge chainNfa chainFreq (95 / 100) =
        .ok { cnt_merged := 2, mapping := [(2, 1), (3, 1)] } ∧
      StdMap.find [((2 : State), (1 : State)), (3, 1)] 2 = some 1 ∧
      StdMap.find [((2 : State), (1 : State)), (3, 1)] 3 = some 1 ∧
      StdMap.find [((2 : State), (1 : State)), (3, 1)] 1 = none ∧
      StdMap.find [((2 : State), (1 : State)), (3, 1)] 4 = none :=
  ⟨merge_chain_eval, by decide, by decide, by decide, by decide⟩

/-! ## The threshold of `merge` -/

/-- Loops whose steps end alike end alike. -/
theorem foldlM_rel {σ α : Type} (f g : σ → α → Except Failure σ) (R : σ → σ → Prop)
    (l : List α) (hstep : ∀ s₁ s₂ a, a ∈ l → R s₁ s₂ → OutcomeRel R (f s₁ a) (g s₂ a))
    (s₁ s₂ : σ) (h : R s₁ s₂) : OutcomeRel R (l.foldlM f s₁) (l.foldlM g s₂) := by
  induction l generalizing s₁ s₂ with
  | nil => simpa [List.foldlM, pure, Except.pure, OutcomeRel] using h
  | cons a rest ih =>
    have hs := hstep s₁ s₂ a (List.mem_cons_self _ _) h
    simp only [List.foldlM, bind, Except.bind]
    cases hf : f s₁ a with
    | error e₁ =>
      cases hg : g s₂ a with
      | error e₂ =>
        rw [hf, hg] at hs
        simpa [OutcomeRel] using hs
      | ok b =>
        rw [hf, hg] at hs
        simp [OutcomeRel] at hs
    | ok a₁ =>
      cases hg : g s₂ a with
      | error e₂ =>
        rw [hf, hg] at hs
        simp [OutcomeRel] at hs
      | ok b =>
        rw [hf, hg] at hs
        simp only [OutcomeRel] at hs
        exact ih (fun s₁ s₂ a ha => hstep s₁ s₂ a (List.mem_cons_of_mem _ ha)) a₁ b hs

theorem mem_keys_record (m : StdMap State) (state ns k : State) :
    k ∈ StdMap.keys (match StdMap.find m state with
      | some target => StdMap.insert m ns target
      | none => StdMap.insert m ns state) ↔ k = ns ∨ k ∈ StdMap.keys m := by
  cases StdMap.find m state with
  | none => exact StdMap.mem_keys_insert _ _ _ _
  | some t => exact StdMap.mem_keys_insert _ _ _ _

theorem visitSucc_threshold (nfa : Nfa) (sf : StdMap Nat) (t₁ t₂ : ℚ) (ht : t₁ ≤ t₂)
    (suc : StdMap (List State)) (state : State) (freq : Nat) (st₁ st₂ : MergeState)
    (ns : State) (h : LowerThreshold st₁ st₂) :
    OutcomeRel LowerThreshold (visitSucc nfa sf t₁ suc state freq st₁ ns)
      (visitSucc nfa sf t₂ suc state freq st₂ ns) := by
  obtain ⟨hv, hn, hk, hc⟩ := h
  unfold visitSucc
  rw [← hv]
  by_cases hvis : ns ∈ st₁.visited
  · rw [if_pos hvis, if_pos hvis]
    exact ⟨hv, hn, hk, hc⟩
  · rw [if_neg hvis, if_neg hvis]
    cases hf : StdMap.at_ sf ns with
    | error e => simp [bind, Except.bind, OutcomeRel]
    | ok f =>
      simp only [bind, Except.bind, pure, Except.pure, OutcomeRel]
      by_cases h2 : ((StdMap.index [] suc ns).all (fun x => !nfa.is_final x) &&
          decide ((f : ℚ) / (freq : ℚ) ≥ t₂)) = true
      · have h1 : ((StdMap.index [] suc ns).all (fun x => !nfa.is_final x) &&
            decide ((f : ℚ) / (freq : ℚ) ≥ t₁)) = true := by
          simp only [Bool.and_eq_true, decide_eq_true_eq] at h2 ⊢
          exact ⟨h2.1, le_trans ht h2.2⟩
        rw [if_pos h1, if_pos h2]
        refine ⟨by simp only [hv], by simp only [hn], ?_, by simp only; omega⟩
        intro k hk2
        simp only at hk2 ⊢
        rw [mem_keys_record] at hk2 ⊢
        rcases hk2 with e | e
        · exact Or.inl e
        · exact Or.inr (hk k e)
      · rw [if_neg h2]
        by_cases h1 : ((StdMap.index [] suc ns).all (fun x => !nfa.is_final x) &&
            decide ((f : ℚ) / (freq : ℚ) ≥ t₁)) = true
        · rw [if_pos h1]
          refine ⟨by simp only [hv], by simp only [hn], ?_, by simp only; omega⟩
          intro k hk2
          simp only at hk2 ⊢
          rw [mem_keys_record]
          exact Or.inr (hk k hk2)
        · rw [if_neg h1]
          exact ⟨by simp only [hv], by simp only [hn], hk, hc⟩

theorem visitState_threshold (nfa : Nfa) (sf : StdMap Nat) (t₁ t₂ : ℚ) (ht : t₁ ≤ t₂)
    (suc : StdMap (List State)) (st₁ st₂ : MergeState) (state : State)
    (h : LowerThreshold st₁ st₂) :
    OutcomeRel LowerThreshold (visitState nfa sf t₁ suc st₁ state)
      (visitState nfa sf t₂ suc st₂ state) := by
  unfold visitState
  cases hf : StdMap.at_ sf state with
  | error e => simp [bind, Except.bind, OutcomeRel]
  | ok freq =>
    simp only [bind, Except.bind]
    by_cases hz : freq = 0
    · rw [if_pos hz, if_pos hz]
      exact h
    · rw [if_neg hz, if_neg hz]
      exact foldlM_rel _ _ LowerThreshold _
        (fun s₁ s₂ a _ hr => visitSucc_threshold nfa sf t₁ t₂ ht suc state freq s₁ s₂ a hr)
        st₁ st₂ h

theorem mergeLoop_threshold (nfa : Nfa) (sf : StdMap Nat) (t₁ t₂ : ℚ) (ht : t₁ ≤ t₂)
    (suc : StdMap (List State)) (fuel : Nat) (actual : List State)
    (st₁ st₂ : MergeState) (h : LowerThreshold st₁ st₂) :
    OutcomeRel LowerThreshold (mergeLoop nfa sf t₁ suc fuel actual st₁)
      (mergeLoop nfa sf t₂ suc fuel actual st₂) := by
  induction fuel generalizing actual st₁ st₂ with
  | zero =>
    cases actual with
    | nil => simpa [mergeLoop, OutcomeRel] using h
    | cons a as => simp [mergeLoop, OutcomeRel]
  | succ fuel ih =>
    cases actual with
    | nil => simpa [mergeLoop, OutcomeRel] using h
    | cons a as =>
      simp only [mergeLoop, bind, Except.bind]
      have hstart : LowerThreshold { st₁ with next := [] } { st₂ with next := [] } :=
        ⟨h.1, rfl, h.2.2.1, h.2.2.2⟩
      have hround := foldlM_rel (visitState nfa sf t₁ suc) (visitState nfa sf t₂ suc)
        LowerThreshold (a :: as)
        (fun s₁ s₂ b _ hr => visitState_threshold nfa sf t₁ t₂ ht suc s₁ s₂ b hr)
        _ _ hstart
      cases h1 : List.foldlM (visitState nfa sf t₁ suc) { st₁ with next := [] } (a :: as) with
      | error e₁ =>
        cases h2 : List.foldlM (visitState nfa sf t₂ suc) { st₂ with next := [] } (a :: as) with
        | error e₂ =>
          rw [h1, h2] at hround
          simpa [OutcomeRel] using hround
        | ok b =>
          rw [h1, h2] at hround
          simp [OutcomeRel] at hround
      | ok a₁ =>
        cases h2 : List.foldlM (visitState nfa sf t₂ suc) { st₂ with next := [] } (a :: as) with
        | error e₂ =>
          rw [h1, h2] at hround
          simp [OutcomeRel] at hround
        | ok b =>
          rw [h1, h2] at hround
          simp only [OutcomeRel] at hround
          simp only []
          rw [hround.2.1]
          exact ih b.next a₁ b hround

/-- The runs of `merge` with a lower and with a higher threshold end alike, and the
higher threshold records no source that the lower does not. -/
theorem merge_threshold (nfa : Nfa) (sf : StdMap Nat) (t₁ t₂ : ℚ) (ht : t₁ ≤ t₂) :
    OutcomeRel (fun r₁ r₂ : MergeResult =>
        (∀ k ∈ StdMap.keys r₂.mapping, k ∈ StdMap.keys r₁.mapping) ∧
          r₂.cnt_merged ≤ r₁.cnt_merged)
      (merge nfa sf t₁) (merge nfa sf t₂) := by
  have hloop := mergeLoop_threshold nfa sf t₁ t₂ ht nfa.suc ((sucStates nfa.suc).length + 1)
    (setErase (StdMap.index [] nfa.suc nfa.initial_state) nfa.initial_state)
    { mapping := [], cnt_merged := 0,
      visited := setInsert (StdMap.index [] nfa.suc nfa.initial_state) nfa.initial_state,
      next := [] }
    { mapping := [], cnt_merged := 0,
      visited := setInsert (StdMap.index [] nfa.suc nfa.initial_state) nfa.initial_state,
      next := [] }
    ⟨rfl, rfl, fun k hk => hk, Nat.le_refl _⟩
  unfold merge
  simp only
  cases h1 : mergeLoop nfa sf t₁ nfa.suc ((sucStates nfa.suc).length + 1)
      (setErase (StdMap.index [] nfa.suc nfa.initial_state) nfa.initial_state)
      { mapping := [], cnt_merged := 0,
        visited := setInsert (StdMap.index [] nfa.suc nfa.initial_state) nfa.initial_state,
        next := [] } with
  | error e₁ =>
    cases h2 : mergeLoop nfa sf t₂ nfa.suc ((sucStates nfa.suc).length + 1)
        (setErase (StdMap.index [] nfa.suc nfa.initial_state) nfa.initial_state)
        { mapping := [], cnt_merged := 0,
          visited := setInsert (StdMap.index [] nfa.suc nfa.initial_state)
            nfa.initial_state,
          next := [] } with
    | error e₂ =>
      rw [h1, h2] at hloop
      simpa [OutcomeRel] using hloop
    | ok b =>
      rw [h1, h2] at hloop
      simp [OutcomeRel] at hloop
  | ok a₁ =>
    cases h2 : mergeLoop nfa sf t₂ nfa.suc ((sucStates nfa.suc).length + 1)
        (setErase (StdMap.index [] nfa.suc nfa.initial_state) nfa.initial_state)
        { mapping := [], cnt_merged := 0,
          visited := setInsert (StdMap.index [] nfa.suc nfa.initial_state)
            nfa.initial_state,
          next := [] } with
    | error e₂ =>
      rw [h1, h2] at hloop
      simp [OutcomeRel] at hloop
    | ok b =>
      rw [h1, h2] at hloop
      simp only [OutcomeRel] at hloop
      simp only [List.any_nil, Bool.false_eq_true, if_false, OutcomeRel]
      exact ⟨hloop.2.2.1, hloop.2.2.2⟩

/-- C12: for thresholds `t₁ <= t₂` the runs of `merge` on the same automaton and
frequencies end alike (both return, or both fail with the same failure: the traversal
does not depend on the threshold); when they return, every merge source recorded with
`t₂` is recorded with `t₁`, and the merged count with `t₂` is at most that with `t₁`. -/
theorem merge_monotone_in_threshold (nfa : Nfa) (sf : StdMap Nat) (t₁ t₂ : ℚ)
    (ht : t₁ ≤ t₂) :
    ((∃ r, merge nfa sf t₁ = .ok r) ↔ (∃ r, merge nfa sf t₂ = .ok r)) ∧
      (∀ e, merge nfa sf t₁ = .error e ↔ merge nfa sf t₂ = .error e) ∧
      ∀ r₁ r₂, merge nfa sf t₁ = .ok r₁ → merge nfa sf t₂ = .ok r₂ →
        (∀ k ∈ StdMap.keys r₂.mapping, k ∈ StdMap.keys r₁.mapping) ∧
          r₂.cnt_merged ≤ r₁.cnt_merged := by
  have h := merge_threshold nfa sf t₁ t₂ ht
  cases h1 : merge nfa sf t₁ with
  | error e₁ =>
    cases h2 : merge nfa sf t₂ with
    | error e₂ =>
      rw [h1, h2] at h
      simp only [OutcomeRel] at h
      subst h
      simp
    | ok b =>
      rw [h1, h2] at h
      simp [OutcomeRel] at h
  | ok a =>
    cases h2 : merge nfa sf t₂ with
    | error e₂ =>
      rw [h1, h2] at h
      simp [OutcomeRel] at h
    | ok b =>
      rw [h1, h2] at h
      simp only [OutcomeRel] at h
      refine ⟨by simp, by simp, ?_⟩
      intro r₁ r₂ e₁ e₂
      injection e₁ with e₁
      injection e₂ with e₂
      subst e₁
      subst e₂
      exact h

/-- C12 on the chain scenario with thresholds 1/2 and 0.95. -/
theorem merge_monotone_in_threshold_witness :
    ((∃ r, merge chainNfa chainFreq (1 / 2) = .ok r) ↔
        (∃ r, merge chainNfa chainFreq (95 / 100) = .ok r)) ∧
      (∀ e, merge chainNfa chainFreq (1 / 2) = .error e ↔
        merge chainNfa chainFreq (95 / 100) = .error e) ∧
      ∀ r₁ r₂, merge chainNfa chainFreq (1 / 2) = .ok r₁ →
        merge chainNfa chainFreq (95 / 100) = .ok r₂ →
        (∀ k ∈ StdMap.keys r₂.mapping, k ∈ StdMap.keys r₁.mapping) ∧
          r₂.cnt_merged ≤ r₁.cnt_merged :=
  merge_monotone_in_threshold chainNfa chainFreq (1 / 2) (95 / 100) (by norm_num)

/-! ## Stale keys and the end of the candidate list -/

/-- C18 (the run that breaks it): the frequency table of the four-state automaton has
the stale key 7, which is neither initial nor final and has no entry in the rule map
or the depth map.  With `pct = 1/2` the walk reaches it first (it has the lowest
frequency, shared with no other candidate, so the sort never reads its depth), and
`prune` returns normally with the entry `7 -> 0` in the merge map: `rule_map[7]`
default-inserts the target 0. -/
theorem prune_records_stale_key :
    prune smallNfa staleFreq (1 / 2) =
        .ok { error := FVal.num (1 / 2), removed := 2, merge_map := [(2, 3), (7, 0)] } ∧
      StdMap.find smallNfa.rules 7 = none ∧ StdMap.find smallNfa.depth 7 = none ∧
      smallNfa.is_final 7 = false ∧ (7 : State) ≠ smallNfa.initial_state ∧
      StdMap.find [((2 : State), (3 : State)), (7, 0)] 7 = some 0 := by
  refine ⟨?_, by decide, by decide, by decide, by decide, by decide⟩
  have h : toRemove (1 / 2) 4 = 2 := by
    rw [toRemove_eq_floor]
    rw [Nat.floor_eq_iff (by norm_num)]
    norm_num
  simp [prune, smallNfa, staleFreq, scanFreq, Nfa.is_final, sortStates,
    insertSorted, cmpStates, StdMap.at_, StdMap.find, fixedWalk, removeState,
    FVal.add, FVal.div, StdMap.insert, StdMap.index, bind, Except.bind, pure, Except.pure]
  norm_num
  rw [h]
  norm_num

/-- C20 (the runs that break it): in automatic mode, with no candidate at all the
first read `sorted_states[0]` is past the end of the empty vector; with the single
candidate 4 of frequency 0 the running error stays 0 and the second read
`sorted_states[1]` is past the end. -/
theorem prune_auto_reads_past_end :
    prune scenarioPruneNfa bareFreq (-1) = .error .vectorOverrun ∧
      candidates scenarioPruneNfa bareFreq = [] ∧
      prune scenarioPruneNfa idleFreq (-1) = .error .vectorOverrun ∧
      candidates scenarioPruneNfa idleFreq = [4] := by
  refine ⟨?_, by decide, ?_, by decide⟩
  · simp [prune, scenarioPruneNfa, bareFreq, scanFreq, Nfa.is_final, sortStates,
      autoWalk, FVal.lt, pure, Except.pure]
  · simp [prune, scenarioPruneNfa, idleFreq, scanFreq, Nfa.is_final, sortStates,
      insertSorted, cmpStates, StdMap.at_, StdMap.find, autoWalk, removeState, FVal.lt,
      FVal.add, FVal.div, StdMap.insert, StdMap.index, bind, Except.bind, pure,
      Except.pure]

/-! ## Facts about `read_state_freq` -/

theorem digitChar_isDigit (k : Nat) (h : k < 10) : (Nat.digitChar k).isDigit = true := by
  interval_cases k <;> rfl

theorem digitChar_val (k : Nat) (h : k < 10) : (Nat.digitChar k).toNat - 48 = k := by
  interval_cases k <;> rfl

theorem digitsVal_append_one (ds : List Char) (c : Char) :
    digitsVal (ds ++ [c]) = 10 * digitsVal ds + (c.toNat - 48) := by
  simp [digitsVal, List.foldl_append]

/-- The digits written for `n` stand in front of the accumulator, are not empty, are
digits, and have the value `n`. -/
theorem decimalAux_spec (fuel n : Nat) (acc : List Char) (h : n < fuel) :
    ∃ pre, decimalAux fuel n acc = pre ++ acc ∧ pre ≠ [] ∧
      (∀ c ∈ pre, c.isDigit = true) ∧ digitsVal pre = n := by
  induction fuel generalizing n acc with
  | zero => omega
  | succ fuel ih =>
    unfold decimalAux
    by_cases hn : n < 10
    · rw [if_pos hn]
      refine ⟨[Nat.digitChar n], rfl, by simp, ?_, ?_⟩
      · intro c hc
        rw [List.mem_singleton.1 hc]
        exact digitChar_isDigit n hn
      · simp [digitsVal, digitChar_val n hn]
    · rw [if_neg hn]
      have hlt : n / 10 < fuel := by omega
      have hmod : n % 10 < 10 := Nat.mod_lt _ (by norm_num)
      obtain ⟨pre, hpre, _, hdig, hval⟩ := ih (n / 10) (Nat.digitChar (n % 10) :: acc) hlt
      refine ⟨pre ++ [Nat.digitChar (n % 10)], by rw [hpre]; simp, by simp, ?_, ?_⟩
      · intro c hc
        rcases List.mem_append.1 hc with e | e
        · exact hdig c e
        · rw [List.mem_singleton.1 e]
          exact digitChar_isDigit _ hmod
      · rw [digitsVal_append_one, hval, digitChar_val _ hmod]
        omega

theorem decimal_spec (n : Nat) :
    decimal n ≠ [] ∧ (∀ c ∈ decimal n, c.isDigit = true) ∧ digitsVal (decimal n) = n := by
  obtain ⟨pre, hpre, hne, hdig, hval⟩ := decimalAux_spec (n + 1) n [] (Nat.lt_succ_self n)
  unfold decimal
  rw [hpre, List.append_nil]
  exact ⟨hne, hdig, hval⟩

theorem isDigit_not_space {c : Char} (h : c.isDigit = true) : isSpace c = false := by
  by_contra hs
  have hs' : isSpace c = true := by simpa using hs
  simp only [isSpace, Bool.or_eq_true, beq_iff_eq] at hs'
  rcases hs' with ((((e | e) | e) | e) | e) | e <;> (rw [e] at h; revert h; decide)

theorem isDigit_not_sign {c : Char} (h : c.isDigit = true) : c ≠ '-' ∧ c ≠ '+' ∧ c ≠ '#' := by
  refine ⟨?_, ?_, ?_⟩ <;> (intro e; rw [e] at h; revert h; decide)

/-- Reading a number from a string that starts with its digits. -/
theorem readULong_digits (ds rest : List Char) (hne : ds ≠ [])
    (hdig : ∀ c ∈ ds, c.isDigit = true)
    (hrest : ∀ c, rest.head? = some c → c.isDigit = false)
    (hval : digitsVal ds < 2 ^ 64) :
    readULong (ds ++ rest) = some (digitsVal ds, rest) := by
  obtain ⟨d, ds', rfl⟩ := List.exists_cons_of_ne_nil hne
  have hd : d.isDigit = true := hdig d (List.mem_cons_self _ _)
  have hsp : isSpace d = false := isDigit_not_space hd
  obtain ⟨hm, hp, _⟩ := isDigit_not_sign hd
  have htake : List.takeWhile Char.isDigit (d :: ds' ++ rest) = d :: ds' := by
    rw [List.takeWhile_append_of_pos hdig]
    cases rest with
    | nil => simp
    | cons r rs =>
      have := hrest r rfl
      simp [List.takeWhile_cons, this]
  have hdrop : List.dropWhile Char.isDigit (d :: ds' ++ rest) = rest := by
    rw [List.dropWhile_append_of_pos hdig]
    cases rest with
    | nil => simp
    | cons r rs =>
      have := hrest r rfl
      simp [List.dropWhile_cons, this]
  have h1 : List.dropWhile isSpace (d :: ds' ++ rest) = d :: ds' ++ rest := by
    simp [List.dropWhile_cons, hsp]
  unfold readULong
  simp only [h1]
  have hneg : decide ((d :: ds' ++ rest).head? = some '-') = false := by
    simp [hm]
  have hpos : decide ((d :: ds' ++ rest).head? = some '+') = false := by
    simp [hp]
  simp only [hneg, hpos, Bool.or_false, Bool.false_eq_true, if_false, htake, hdrop]
  rw [if_neg (by simp), if_neg (by omega)]

theorem readULong_space (s : List Char) : readULong (' ' :: s) = readULong s := by
  have h : List.dropWhile isSpace (' ' :: s) = List.dropWhile isSpace s := by
    rw [List.dropWhile_cons]
    simp [isSpace]
  unfold readULong
  simp only [h]

/-- A written line parses to the entry it was written from. -/
theorem parseLine_written (k v : Nat) (hk : k < 2 ^ 64) (hv : v < 2 ^ 64) :
    parseLine (decimal k ++ ' ' :: decimal v) = some (k, v) := by
  obtain ⟨kne, kdig, kval⟩ := decimal_spec k
  obtain ⟨vne, vdig, vval⟩ := decimal_spec v
  have h1 : readULong (decimal k ++ ' ' :: decimal v) = some (k, ' ' :: decimal v) := by
    have := readULong_digits (decimal k) (' ' :: decimal v) kne kdig
      (by intro c hc; simp at hc; rw [← hc]; decide) (by rw [kval]; exact hk)
    rw [this, kval]
  have h2 : readULong (' ' :: decimal v) = some (v, []) := by
    rw [readULong_space]
    have := readULong_digits (decimal v) [] vne vdig (by intro c hc; simp at hc)
      (by rw [vval]; exact hv)
    rw [List.append_nil] at this
    rw [this, vval]
  unfold parseLine
  rw [h1]
  simp only [h2]

theorem stripComment_written (k v : Nat) :
    stripComment (decimal k ++ ' ' :: decimal v) = decimal k ++ ' ' :: decimal v := by
  unfold stripComment
  rw [List.takeWhile_eq_self_iff]
  intro c hc
  have hne : c ≠ '#' := by
    rcases List.mem_append.1 hc with e | e
    · exact (isDigit_not_sign ((decimal_spec k).2.1 c e)).2.2
    · rcases List.mem_cons.1 e with e | e
      · rw [e]
        decide
      · exact (isDigit_not_sign ((decimal_spec v).2.1 c e)).2.2
  simpa using hne

theorem insert_at_end (m : StdMap Nat) (k v : Nat) (h : ∀ a ∈ StdMap.keys m, a < k) :
    StdMap.insert m k v = m ++ [(k, v)] := by
  induction m with
  | nil => rfl
  | cons p rest ih =>
    obtain ⟨k1, v1⟩ := p
    have hk1 : k1 < k := h k1 (by simp [StdMap.keys])
    unfold StdMap.insert
    rw [if_neg (Nat.lt_asymm hk1), if_neg (Nat.ne_of_gt hk1)]
    rw [ih (fun a ha => h a (by
      simp only [StdMap.keys, List.map_cons, List.mem_cons]
      exact Or.inr ha))]
    rfl

/-- Reading back the lines written from a map appends the map to what was read
before, when the keys ascend. -/
theorem readLines_written (is_state : State → Bool) (m acc : StdMap Nat)
    (hwf : StdMap.WF (acc ++ m))
    (hvalid : ∀ p ∈ m, is_state p.1 = true ∧ p.1 < 2 ^ 64 ∧ p.2 < 2 ^ 64) :
    readLines is_state (writeFreq m) acc = .ok (acc ++ m) := by
  induction m generalizing acc with
  | nil => simp [writeFreq, readLines]
  | cons p rest ih =>
    obtain ⟨k, v⟩ := p
    obtain ⟨hs, hk, hv⟩ := hvalid (k, v) (List.mem_cons_self _ _)
    have hlt : ∀ a ∈ StdMap.keys acc, a < k := by
      unfold StdMap.WF StdMap.keys at hwf
      rw [List.map_append, List.pairwise_append] at hwf
      intro a ha
      exact hwf.2.2 a ha k (by simp)
    have hne : decimal k ++ ' ' :: decimal v ≠ [] := by simp
    simp only [writeFreq, List.map_cons, readLines, stripComment_written, if_neg hne,
      parseLine_written k v hk hv, hs, Bool.not_true, Bool.false_eq_true, if_false]
    rw [insert_at_end acc k v hlt]
    have := ih (acc ++ [(k, v)]) (by simpa using hwf)
      (fun q hq => hvalid q (List.mem_cons_of_mem _ hq))
    simpa [writeFreq] using this

theorem readLines_step (is_state : State → Bool) (line : List Char)
    (rest : List (List Char)) (ret : StdMap Nat) :
    readLines is_state (line :: rest) ret =
      if stripComment line = [] then readLines is_state rest ret
      else
        match parseLine (stripComment line) with
        | none => .error .invalidSyntax
        | some (s, l) =>
          if !is_state s then .error (.invalidState s)
          else readLines is_state rest (StdMap.insert ret s l) := by
  rfl

/-- The loop fails exactly when some line is bad. -/
theorem readLines_fails_iff (is_state : State → Bool) (lines : List (List Char))
    (ret : StdMap Nat) :
    (∃ e, readLines is_state lines ret = .error e) ↔
      ∃ line ∈ lines, BadLine is_state line := by
  induction lines generalizing ret with
  | nil => simp [readLines]
  | cons line rest ih =>
    rw [readLines_step]
    by_cases he : stripComment line = []
    · rw [if_pos he, ih]
      constructor
      · rintro ⟨l, hl, hb⟩
        exact ⟨l, List.mem_cons_of_mem _ hl, hb⟩
      · rintro ⟨l, hl, hb⟩
        rcases List.mem_cons.1 hl with e | e
        · subst e
          exact absurd he hb.1
        · exact ⟨l, e, hb⟩
    · rw [if_neg he]
      cases hp : parseLine (stripComment line) with
      | none =>
        simp only []
        constructor
        · intro _
          exact ⟨line, List.mem_cons_self _ _, he, Or.inl hp⟩
        · intro _
          exact ⟨_, rfl⟩
      | some p =>
        obtain ⟨s, l⟩ := p
        simp only []
        by_cases hs : is_state s = true
        · simp only [hs, Bool.not_true, Bool.false_eq_true, if_false]
          rw [ih]
          constructor
          · rintro ⟨l', hl, hb⟩
            exact ⟨l', List.mem_cons_of_mem _ hl, hb⟩
          · rintro ⟨l', hl, hb⟩
            rcases List.mem_cons.1 hl with e | e
            · subst e
              rcases hb.2 with hb | ⟨s', l'', hb, hst⟩
              · rw [hp] at hb
                cases hb
              · rw [hp] at hb
                injection hb with hb
                injection hb with h1 h2
                subst h1
                rw [hs] at hst
                cases hst
            · exact ⟨l', e, hb⟩
        · have hs' : is_state s = false := by simpa using hs
          simp only [hs', Bool.not_false, if_true]
          constructor
          · intro _
            exact ⟨line, List.mem_cons_self _ _, he, Or.inr ⟨s, l, hp, hs'⟩⟩
          · intro _
            exact ⟨_, rfl⟩

/-- A run of the loop that returns has made the assignments for the entries of the
lines, all of which name states of the automaton. -/
theorem readLines_ok (is_state : State → Bool) (lines : List (List Char))
    (ret m : StdMap Nat) (h : readLines is_state lines ret = .ok m) :
    m = insertAll ret (entries lines) ∧ ∀ e ∈ entries lines, is_state e.1 = true := by
  induction lines generalizing ret with
  | nil =>
    simp only [readLines] at h
    injection h with h
    simp [entries, insertAll, h]
  | cons line rest ih =>
    rw [readLines_step] at h
    by_cases he : stripComment line = []
    · rw [if_pos he] at h
      have hent : entries (line :: rest) = entries rest := by
        simp [entries, List.filterMap_cons, entryOf, he]
      rw [hent]
      exact ih ret h
    · rw [if_neg he] at h
      cases hp : parseLine (stripComment line) with
      | none => simp [hp] at h
      | some p =>
        obtain ⟨s, l⟩ := p
        simp only [hp] at h
        by_cases hs : is_state s = true
        · simp only [hs, Bool.not_true, Bool.false_eq_true, if_false] at h
          have hent : entries (line :: rest) = (s, l) :: entries rest := by
            simp [entries, List.filterMap_cons, entryOf, he, hp]
          rw [hent]
          obtain ⟨h1, h2⟩ := ih _ h
          refine ⟨by rw [h1]; rfl, ?_⟩
          intro e hmem
          rcases List.mem_cons.1 hmem with e' | e'
          · rw [e']
            exact hs
          · exact h2 e e'
        · have hs' : is_state s = false := by simpa using hs
          simp [hs'] at h

theorem find_append {V : Type} (a b : StdMap V) (k : State) :
    StdMap.find (a ++ b) k =
      match StdMap.find a k with
      | some v => some v
      | none => StdMap.find b k := by
  induction a with
  | nil => simp [StdMap.find]
  | cons p rest ih =>
    obtain ⟨k1, v1⟩ := p
    by_cases h : k1 = k
    · simp [StdMap.find, h]
    · simp only [List.cons_append, StdMap.find, if_neg h]
      exact ih

/-- After the assignments, a key holds the count of the last entry that names it. -/
theorem find_insertAll (ret : StdMap Nat) (es : List (State × Nat)) (k : State) :
    StdMap.find (insertAll ret es) k = StdMap.find (es.reverse ++ ret) k := by
  induction es generalizing ret with
  | nil => simp [insertAll]
  | cons e rest ih =>
    have := ih (StdMap.insert ret e.1 e.2)
    simp only [insertAll, List.foldl_cons] at this ⊢
    rw [this, List.reverse_cons, List.append_assoc, find_append, find_append]
    have hins : StdMap.find (StdMap.insert ret e.1 e.2) k = StdMap.find ([e] ++ ret) k := by
      rw [StdMap.find_insert]
      by_cases hk : k = e.1
      · subst hk
        simp [StdMap.find]
      · have hk' : ¬ e.1 = k := fun h => hk h.symm
        simp [StdMap.find, hk, hk']
    rw [hins]

theorem insertAll_wf (ret : StdMap Nat) (es : List (State × Nat)) (h : StdMap.WF ret) :
    StdMap.WF (insertAll ret es) := by
  induction es generalizing ret with
  | nil => simpa [insertAll] using h
  | cons e rest ih =>
    have := ih (StdMap.insert ret e.1 e.2) (wf_insert _ _ _ h)
    simpa [insertAll] using this

theorem mem_insert {V : Type} (m : StdMap V) (k : State) (v : V) (p : State × V)
    (h : p ∈ StdMap.insert m k v) : p = (k, v) ∨ p ∈ m := by
  induction m with
  | nil =>
    simp only [StdMap.insert, List.mem_singleton] at h
    exact Or.inl h
  | cons q rest ih =>
    obtain ⟨k1, v1⟩ := q
    unfold StdMap.insert at h
    by_cases h1 : k < k1
    · rw [if_pos h1] at h
      rcases List.mem_cons.1 h with e | e
      · exact Or.inl e
      · exact Or.inr e
    · rw [if_neg h1] at h
      by_cases h2 : k = k1
      · rw [if_pos h2] at h
        rcases List.mem_cons.1 h with e | e
        · exact Or.inl e
        · exact Or.inr (List.mem_cons_of_mem _ e)
      · rw [if_neg h2] at h
        rcases List.mem_cons.1 h with e | e
        · exact Or.inr (by rw [e]; exact List.mem_cons_self _ _)
        · rcases ih e with e' | e'
          · exact Or.inl e'
          · exact Or.inr (List.mem_cons_of_mem _ e')

theorem mem_insertAll (ret : StdMap Nat) (es : List (State × Nat)) (p : State × Nat)
    (h : p ∈ insertAll ret es) : p ∈ ret ∨ p ∈ es := by
  induction es generalizing ret with
  | nil => exact Or.inl (by simpa [insertAll] using h)
  | cons e rest ih =>
    have h' : p ∈ insertAll (StdMap.insert ret e.1 e.2) rest := by
      simpa [insertAll] using h
    rcases ih _ h' with h1 | h1
    · rcases mem_insert _ _ _ _ h1 with h2 | h2
      · exact Or.inr (by rw [h2]; exact List.mem_cons_self _ _)
      · exact Or.inl h2
    · exact Or.inr (List.mem_cons_of_mem _ h1)

/-- Entries that list the states once each in ascending order are stored as they are. -/
theorem insertAll_sorted (ret : StdMap Nat) (es : List (State × Nat))
    (h : StdMap.WF (ret ++ es)) : insertAll ret es = ret ++ es := by
  induction es generalizing ret with
  | nil => simp [insertAll]
  | cons e rest ih =>
    obtain ⟨k, v⟩ := e
    have hlt : ∀ a ∈ StdMap.keys ret, a < k := by
      unfold StdMap.WF StdMap.keys at h
      rw [List.map_append, List.pairwise_append] at h
      intro a ha
      exact h.2.2 a ha k (by simp)
    have := ih (ret ++ [(k, v)]) (by simpa using h)
    simp only [insertAll, List.foldl_cons] at this ⊢
    rw [insert_at_end ret k v hlt, this]
    simp

theorem readULong_lt {s r : List Char} {v : Nat} (h : readULong s = some (v, r)) :
    v < 2 ^ 64 := by
  unfold readULong at h
  simp only at h
  split_ifs at h with h1 h2 h3 h4 h5 h6
  all_goals
    simp only [Option.some.injEq, Prod.mk.injEq] at h
    obtain ⟨hv, _⟩ := h
    rw [← hv]
  all_goals first
    | exact Nat.mod_lt _ (by norm_num)
    | omega

theorem parseLine_lt {buf : List Char} {s l : Nat} (h : parseLine buf = some (s, l)) :
    s < 2 ^ 64 ∧ l < 2 ^ 64 := by
  unfold parseLine at h
  cases h1 : readULong buf with
  | none => simp [h1] at h
  | some p =>
    obtain ⟨s', r⟩ := p
    simp only [h1] at h
    cases h2 : readULong r with
    | none => simp [h2] at h
    | some q =>
      obtain ⟨l', r'⟩ := q
      simp only [h2] at h
      injection h with h
      injection h with e1 e2
      subst e1
      subst e2
      exact ⟨readULong_lt h1, readULong_lt h2⟩

theorem entries_lt (lines : List (List Char)) :
    ∀ e ∈ entries lines, e.1 < 2 ^ 64 ∧ e.2 < 2 ^ 64 := by
  intro e he
  unfold entries at he
  obtain ⟨line, _, hl⟩ := List.mem_filterMap.1 he
  unfold entryOf at hl
  split at hl
  · cases hl
  · exact parseLine_lt hl

/-- The entries of the lines written from a map are the entries of the map. -/
theorem entries_written (m : StdMap Nat) (h : ∀ p ∈ m, p.1 < 2 ^ 64 ∧ p.2 < 2 ^ 64) :
    entries (writeFreq m) = m := by
  induction m with
  | nil => rfl
  | cons p rest ih =>
    obtain ⟨k, v⟩ := p
    obtain ⟨hk, hv⟩ := h (k, v) (List.mem_cons_self _ _)
    have hne : decimal k ++ ' ' :: decimal v ≠ [] := by simp
    have hent : entryOf (decimal k ++ ' ' :: decimal v) = some (k, v) := by
      unfold entryOf
      rw [stripComment_written, if_neg hne, parseLine_written k v hk hv]
    have := ih (fun q hq => h q (List.mem_cons_of_mem _ hq))
    unfold entries at this ⊢
    simp only [writeFreq, List.map_cons, List.filterMap_cons, hent]
    exact congrArg (fun t => (k, v) :: t) this

theorem readLines_append (is_state : State → Bool) (pre post : List (List Char))
    (ret : StdMap Nat) :
    readLines is_state (pre ++ post) ret =
      match readLines is_state pre ret with
      | .error e => .error e
      | .ok m => readLines is_state post m := by
  induction pre generalizing ret with
  | nil => simp [readLines]
  | cons line rest ih =>
    rw [List.cons_append, readLines_step, readLines_step]
    by_cases he : stripComment line = []
    · rw [if_pos he, if_pos he]
      exact ih ret
    · rw [if_neg he, if_neg he]
      cases hp : parseLine (stripComment line) with
      | none => rfl
      | some p =>
        obtain ⟨s, l⟩ := p
        simp only []
        by_cases hs : is_state s = true
        · simp only [hs, Bool.not_true, Bool.false_eq_true, if_false]
          exact ih _
        · have hs' : is_state s = false := by simpa using hs
          simp only [hs', Bool.not_false, if_true]

/-- A string of whitespace does not parse. -/
theorem parseLine_blank (buf : List Char) (h : ∀ c ∈ buf, isSpace c = true) :
    parseLine buf = none := by
  have hdrop : List.dropWhile isSpace buf = [] := by
    rw [List.dropWhile_eq_nil_iff]
    exact h
  have : readULong buf = none := by
    unfold readULong
    simp [hdrop]
  unfold parseLine
  rw [this]

/-! ### Failure and success of `read_state_freq` -/

/-- C15 (as stated, refuted): a file that cannot be opened makes `read_state_freq`
fail although no line of it is unparsable or names an unknown state; and lines that
are not of the form `<state> <count>` do not make it fail: text after the second
number is ignored, and a count with a minus sign is read modulo `2 ^ 64`. -/
theorem read_state_freq_unopened_fails :
    read_state_freq (fun _ => true) none = .error .cannotOpenFile ∧
      read_state_freq (fun _ => true) (some [ "1 5 junk".toList]) = .ok [(1, 5)] ∧
      read_state_freq (fun _ => true) (some [ "1 -5".toList]) =
        .ok [(1, 18446744073709551611)] :=
  ⟨rfl, rfl, rfl⟩

/-- C15 (amended): `read_state_freq` fails if and only if the file cannot be opened or
some line that is not empty after comment stripping cannot be parsed by
`iss >> s >> l` or names a state that is not a state of the automaton.  A failure
returns no map.  On success every key of the returned map is a state of the automaton
and maps to the count of the last line that names it. -/
theorem read_state_freq_fails_iff (is_state : State → Bool)
    (file : Option (List (List Char))) :
    ((∃ e, read_state_freq is_state file = .error e) ↔
        (file = none ∨ ∃ lines, file = some lines ∧ ∃ line ∈ lines, BadLine is_state line)) ∧
      (∀ e, read_state_freq is_state file = .error e →
        ∀ m, read_state_freq is_state file ≠ .ok m) ∧
      ∀ lines m, file = some lines → read_state_freq is_state file = .ok m →
        (∀ k ∈ StdMap.keys m, is_state k = true) ∧
        (∀ k, StdMap.find m k = StdMap.find (entries lines).reverse k) ∧
        ∀ k v, StdMap.find m k = some v →
          ∃ line ∈ lines, stripComment line ≠ [] ∧
            parseLine (stripComment line) = some (k, v) := by
  refine ⟨?_, ?_, ?_⟩
  · cases file with
    | none => simp [read_state_freq]
    | some lines =>
      simp only [read_state_freq, readLines_fails_iff, Option.some.injEq, false_or,
        reduceCtorEq]
      constructor
      · intro h
        exact ⟨lines, rfl, h⟩
      · rintro ⟨l, hl, h⟩
        rw [← hl] at h
        exact h
  · intro e he m hm
    rw [he] at hm
    cases hm
  · intro lines m hfile hm
    subst hfile
    simp only [read_state_freq] at hm
    obtain ⟨hmeq, hvalid⟩ := readLines_ok is_state lines [] m hm
    have hfind : ∀ k, StdMap.find m k = StdMap.find (entries lines).reverse k := by
      intro k
      rw [hmeq, find_insertAll, List.append_nil]
    have hentry : ∀ k v, StdMap.find m k = some v → (k, v) ∈ entries lines := by
      intro k v hkv
      rw [hfind] at hkv
      exact List.mem_reverse.1 (StdMap.find_mem hkv)
    refine ⟨?_, hfind, ?_⟩
    · intro k hk
      obtain ⟨v, hv⟩ := StdMap.find_of_mem_keys hk
      exact hvalid (k, v) (hentry k v hv)
    · intro k v hkv
      have hmem := hentry k v hkv
      unfold entries at hmem
      obtain ⟨line, hline, hl⟩ := List.mem_filterMap.1 hmem
      unfold entryOf at hl
      by_cases he : stripComment line = []
      · rw [if_pos he] at hl
        cases hl
      · rw [if_neg he] at hl
        exact ⟨line, hline, he, hl⟩

/-- C15 (amended) on a file with a comment line, an empty line and a trailing comment,
all of whose states are states of the automaton. -/
theorem read_state_freq_fails_iff_witness :
    read_state_freq (fun _ => true)
        (some [ "# frequencies".toList, "1 5".toList, "".toList, "0 7 # init".toList]) =
        .ok [(0, 7), (1, 5)] ∧
      ∀ k ∈ StdMap.keys [((0 : State), (7 : Nat)), (1, 5)], (fun _ => true) k = true := by
  have hm : read_state_freq (fun _ => true)
      (some [ "# frequencies".toList, "1 5".toList, "".toList, "0 7 # init".toList]) =
      .ok [(0, 7), (1, 5)] := rfl
  exact ⟨hm, ((read_state_freq_fails_iff (fun _ => true)
    (some [ "# frequencies".toList, "1 5".toList, "".toList, "0 7 # init".toList])).2.2
    _ _ rfl hm).1⟩

/-! ### Lines that are skipped -/

theorem stripComment_eq_nil_iff (line : List Char) :
    stripComment line = [] ↔ (line = [] ∨ line.head? = some '#') := by
  unfold stripComment
  cases line with
  | nil => simp
  | cons c cs =>
    by_cases hc : c = '#'
    · simp [List.takeWhile_cons, hc]
    · simp [List.takeWhile_cons, hc]

theorem stripComment_append_hash (buf comment : List Char) (h : ∀ c ∈ buf, c ≠ '#') :
    stripComment (buf ++ '#' :: comment) = buf ∧ stripComment buf = buf := by
  unfold stripComment
  have hall : ∀ c ∈ buf, (c != '#') = true := by
    intro c hc
    simpa using h c hc
  constructor
  · rw [List.takeWhile_append_of_pos hall]
    simp [List.takeWhile_cons]
  · rw [List.takeWhile_eq_self_iff]
    exact hall

/-- C17 (as stated, refuted): a line of whitespace, and a comment preceded by
whitespace, are not skipped: `read_state_freq` fails on them with the syntax error. -/
theorem read_state_freq_blank_line_fails :
    read_state_freq (fun _ => true) (some [ "0 7".toList, " ".toList, "1 5".toList]) =
        .error .invalidSyntax ∧
      read_state_freq (fun _ => true)
        (some [ "0 7".toList, "  # note".toList, "1 5".toList]) = .error .invalidSyntax :=
  ⟨rfl, rfl⟩

/-- C17 (amended): `read_state_freq` skips, without failing and without adding an
entry, every empty line and every line that begins with `#`; a trailing `# comment`
after the text of a line does not change what the line is read as.  A line that holds
only whitespace once its comment is stripped (a whitespace-only line, or a comment
preceded by whitespace) is not skipped: it fails with the syntax error, provided no
earlier line has failed. -/
theorem read_state_freq_skips (is_state : State → Bool) (pre post : List (List Char)) :
    (∀ line, (line = [] ∨ line.head? = some '#') →
        read_state_freq is_state (some (pre ++ line :: post)) =
          read_state_freq is_state (some (pre ++ post))) ∧
      (∀ buf comment, (∀ c ∈ buf, c ≠ '#') →
        read_state_freq is_state (some (pre ++ (buf ++ '#' :: comment) :: post)) =
          read_state_freq is_state (some (pre ++ buf :: post))) ∧
      ∀ line, stripComment line ≠ [] → (∀ c ∈ stripComment line, isSpace c = true) →
        ∀ m, read_state_freq is_state (some pre) = .ok m →
          read_state_freq is_state (some (pre ++ line :: post)) = .error .invalidSyntax := by
  refine ⟨?_, ?_, ?_⟩
  · intro line hline
    have he := (stripComment_eq_nil_iff line).2 hline
    simp only [read_state_freq, readLines_append]
    cases readLines is_state pre [] with
    | error e => rfl
    | ok m =>
      simp only []
      rw [readLines_step, if_pos he]
  · intro buf comment hbuf
    obtain ⟨h1, h2⟩ := stripComment_append_hash buf comment hbuf
    simp only [read_state_freq, readLines_append]
    cases readLines is_state pre [] with
    | error e => rfl
    | ok m =>
      simp only []
      rw [readLines_step, readLines_step, h1, h2]
  · intro line hne hblank m hm
    simp only [read_state_freq] at hm
    simp only [read_state_freq, readLines_append, hm]
    rw [readLines_step, if_neg hne, parseLine_blank _ hblank]

/-- C17 (amended) on a file whose second line is a comment. -/
theorem read_state_freq_skips_witness :
    read_state_freq (fun _ => true)
        (some ([ "0 7".toList] ++ "# note".toList :: [ "1 5".toList])) =
      read_state_freq (fun _ => true) (some ([ "0 7".toList] ++ [ "1 5".toList])) :=
  (read_state_freq_skips (fun _ => true) [ "0 7".toList] [ "1 5".toList]).1
    "# note".toList (Or.inr rfl)

/-! ### Writing and reading back -/

/-- C16 (as stated, refuted): the file with the lines `1 5` and `1 7` is read as the
map `{1: 7}`, which is written back as the single line `1 7`: the entry `1 5` of the
file is not reproduced.  The file with the lines `1 5` and `0 7` is written back in
the order `0 7`, `1 5`. -/
theorem write_after_read_differs :
    read_state_freq (fun _ => true) (some [ "1 5".toList, "1 7".toList]) = .ok [(1, 7)] ∧
      writeFreq [(1, 7)] = [ "1 7".toList] ∧
      entries [ "1 5".toList, "1 7".toList] = [(1, 5), (1, 7)] ∧
      read_state_freq (fun _ => true) (some [ "1 5".toList, "0 7".toList]) =
        .ok [(0, 7), (1, 5)] ∧
      writeFreq [(0, 7), (1, 5)] = [ "0 7".toList, "1 5".toList] :=
  ⟨rfl, by decide, by decide, rfl, by decide⟩

/-- C16 (amended): reading the lines written from a map with ascending keys that are
states of the automaton (keys and counts in the range of `unsigned long`) returns that
map.  When `read_state_freq` returns a map for a file, the map has ascending keys and
holds, for each state named in the file, the count of the last line naming it; the
lines written from it carry exactly the entries of the map and are read back as the
same map; they carry exactly the entries of the file when the file names its states
once each in ascending order. -/
theorem read_write_round_trip (is_state : State → Bool) :
    (∀ m : StdMap Nat, StdMap.WF m →
        (∀ p ∈ m, is_state p.1 = true ∧ p.1 < 2 ^ 64 ∧ p.2 < 2 ^ 64) →
        read_state_freq is_state (some (writeFreq m)) = .ok m) ∧
      ∀ lines m, read_state_freq is_state (some lines) = .ok m →
        StdMap.WF m ∧ entries (writeFreq m) = m ∧
        (∀ k, StdMap.find m k = StdMap.find (entries lines).reverse k) ∧
        (StdMap.WF (entries lines) → entries (writeFreq m) = entries lines) ∧
        read_state_freq is_state (some (writeFreq m)) = .ok m := by
  have hback : ∀ m : StdMap Nat, StdMap.WF m →
      (∀ p ∈ m, is_state p.1 = true ∧ p.1 < 2 ^ 64 ∧ p.2 < 2 ^ 64) →
      read_state_freq is_state (some (writeFreq m)) = .ok m := by
    intro m hwf hvalid
    have := readLines_written is_state m [] (by simpa using hwf) hvalid
    simpa [read_state_freq] using this
  refine ⟨hback, ?_⟩
  intro lines m hm
  simp only [read_state_freq] at hm
  obtain ⟨hmeq, hvalid⟩ := readLines_ok is_state lines [] m hm
  have hwf : StdMap.WF m := by
    rw [hmeq]
    exact insertAll_wf [] _ (by simp [StdMap.WF, StdMap.keys])
  have hmem : ∀ p ∈ m, p ∈ entries lines := by
    intro p hp
    rw [hmeq] at hp
    rcases mem_insertAll [] _ p hp with h | h
    · simp at h
    · exact h
  have hbound : ∀ p ∈ m, is_state p.1 = true ∧ p.1 < 2 ^ 64 ∧ p.2 < 2 ^ 64 := by
    intro p hp
    have := entries_lt lines p (hmem p hp)
    exact ⟨hvalid p (hmem p hp), this.1, this.2⟩
  have hent : entries (writeFreq m) = m :=
    entries_written m (fun p hp => (hbound p hp).2)
  refine ⟨hwf, hent, ?_, ?_, hback m hwf hbound⟩
  · intro k
    rw [hmeq, find_insertAll, List.append_nil]
  · intro hsorted
    rw [hent, hmeq]
    have := insertAll_sorted [] (entries lines) (by simpa using hsorted)
    simpa using this

/-- C16 (amended) on the map `{0: 7, 1: 5}`. -/
theorem read_write_round_trip_witness :
    read_state_freq (fun _ => true) (some (writeFreq [(0, 7), (1, 5)])) =
      .ok [(0, 7), (1, 5)] :=
  (read_write_round_trip (fun _ => true)).1 [(0, 7), (1, 5)] (by decide) (by
    intro p hp
    simp only [List.mem_cons, List.mem_singleton, List.not_mem_nil, or_false] at hp
    rcases hp with h | h <;> (rw [h]; exact ⟨rfl, by norm_num, by norm_num⟩))

/-! ## Facts about `reduce` -/

theorem prune_assertion (nfa : Nfa) (sf : StdMap Nat) (pct : ℚ)
    (h : ¬ ((0 < pct ∧ pct ≤ 1) ∨ pct = -1)) : prune nfa sf pct = .error .assertion := by
  unfold prune
  rw [if_pos h]

/-- C13: `reduce` called with `iterations = 0` does not depend on the threshold: it is
the frequency source followed by the end of `reduce` (rescaling, filtering, `prune`) on
the automaton it was given, with merged count 0.  Whenever it returns, the merged
count is 0 and the automaton is the given one with the merge map of the final `prune`
applied. -/
theorem reduce_without_iterations (w : World) (nfa : Nfa) (pct th : ℚ) (pre : Bool) :
    (∀ th', reduce w nfa pct th' 0 pre = reduce w nfa pct th 0 pre) ∧
      reduce w nfa pct th 0 pre =
        (match (if pre then read_state_freq (w.is_state nfa) w.file
            else compute_freq w nfa) with
          | .error e => .error e
          | .ok state_freq => reduceTail w nfa nfa.state_count state_freq pct 0) ∧
      ∀ r, reduce w nfa pct th 0 pre = .ok r →
        r.merged = 0 ∧
        ∃ state_freq pr,
          pruneF nfa (filterStates (w.is_state nfa) state_freq)
            (if pct ≠ -1 then rescale pct nfa.state_count nfa.state_count
              else .num pct) = .ok pr ∧
          r.error = pr.error ∧ r.nfa = w.merge_states nfa pr.merge_map := by
  have heq : ∀ t, reduce w nfa pct t 0 pre =
      (match (if pre then read_state_freq (w.is_state nfa) w.file
          else compute_freq w nfa) with
        | .error e => .error e
        | .ok state_freq => reduceTail w nfa nfa.state_count state_freq pct 0) := by
    intro t
    unfold reduce
    simp
  refine ⟨fun t => by rw [heq t, heq th], heq th, ?_⟩
  intro r hr
  rw [heq th] at hr
  cases hsrc : (if pre then read_state_freq (w.is_state nfa) w.file
      else compute_freq w nfa) with
  | error e => simp [hsrc] at hr
  | ok sf =>
    simp only [hsrc] at hr
    unfold reduceTail at hr
    simp only [Nat.lt_irrefl, and_false, if_false] at hr
    cases hp : pruneF nfa (filterStates (w.is_state nfa) sf)
        (if pct ≠ -1 then rescale pct nfa.state_count nfa.state_count else .num pct) with
    | error e =>
      rw [hp] at hr
      cases hr
    | ok pr =>
      rw [hp] at hr
      injection hr with hr
      rw [← hr]
      exact ⟨rfl, sf, pr, hp, rfl, rfl⟩

theorem read_scenarioPruneFile :
    read_state_freq ((fileWorld scenarioPruneFile).is_state scenarioPruneNfa)
      (fileWorld scenarioPruneFile).file = .ok scenarioPruneFreq := by
  rfl

/-- C13 on the scenario automaton with a frequency file and automatic pruning: the
call returns with merged count 0. -/
theorem reduce_without_iterations_witness :
    ∃ r, reduce (fileWorld scenarioPruneFile) scenarioPruneNfa (-1) (95 / 100) 0 true = .ok r ∧
      r.merged = 0 := by
  have hfilter : filterStates ((fileWorld scenarioPruneFile).is_state scenarioPruneNfa)
      scenarioPruneFreq = scenarioPruneFreq := by
    rfl
  have hrun : reduce (fileWorld scenarioPruneFile) scenarioPruneNfa (-1) (95 / 100) 0 true =
      .ok { error := FVal.num (1 / 100), merged := 0,
            nfa := collapse scenarioPruneNfa [(4, 5)] } := by
    rw [(reduce_without_iterations (fileWorld scenarioPruneFile) scenarioPruneNfa (-1)
      (95 / 100) true).2.1]
    simp only [if_true, read_scenarioPruneFile]
    unfold reduceTail
    simp only [ne_eq, not_true_eq_false, false_and, if_false, hfilter, pruneF,
      prune_auto_scenario_eval]
    rfl
  exact ⟨_, hrun, rfl⟩

theorem rescale_eq (pct : ℚ) (old_cnt new_cnt : Nat) (h : 0 < new_cnt) :
    rescale pct old_cnt new_cnt = .num (pct * (old_cnt : ℚ) / (new_cnt : ℚ)) := by
  unfold rescale
  rw [if_neg (Nat.pos_iff_ne_zero.1 h)]
  congr 1
  ring

/-- The end of `reduce` fails the assertion of `prune` when merging has left fewer
states than the requested share of the original count. -/
theorem reduceTail_ratio_above_one (w : World) (nfa : Nfa) (old_cnt : Nat)
    (sf : StdMap Nat) (pct : ℚ) (merged : Nat) (h0 : 0 < pct)
    (hle : nfa.state_count ≤ old_cnt)
    (hgt : (nfa.state_count : ℚ) < pct * (old_cnt : ℚ)) :
    reduceTail w nfa old_cnt sf pct merged = .error .assertion := by
  have hne : pct ≠ -1 := by
    intro e
    rw [e] at h0
    exact absurd h0 (by norm_num)
  unfold reduceTail
  simp only [hne, ne_eq, not_false_eq_true, true_and, if_true]
  rw [if_neg (Nat.not_lt.2 hle)]
  by_cases hz : nfa.state_count = 0
  · by_cases hq : (old_cnt : ℚ) * pct = 0
    · simp [rescale, hz, hq, pruneF]
    · simp [rescale, hz, hq, pruneF]
  · have hpos : 0 < nfa.state_count := Nat.pos_of_ne_zero hz
    have hposq : (0 : ℚ) < (nfa.state_count : ℚ) := by exact_mod_cast hpos
    rw [rescale_eq pct old_cnt nfa.state_count hpos]
    have hbig : 1 < pct * (old_cnt : ℚ) / (nfa.state_count : ℚ) := by
      rw [lt_div_iff₀ hposq]
      linarith
    simp only [pruneF]
    rw [prune_assertion]
    intro hc
    rcases hc with ⟨_, h1⟩ | h1
    · linarith
    · linarith

theorem read_chainFile :
    read_state_freq ((fileWorld chainFile).is_state chainNfa) (fileWorld chainFile).file =
      .ok chainFreq := by
  rfl

/-- C19 (the run that breaks it): on the chain scenario, read from a frequency file,
`reduce` with `keepRatio = 1`, threshold 0.95 and one iteration merges two of the six
states, rescales the ratio to `1 * 6 / 4 = 3/2` and fails the assertion at the top of
`prune`.  In general the end of `reduce` fails that assertion whenever the automaton
left by merging has fewer than `keepRatio * originalStateCount` states. -/
theorem reduce_ratio_above_one :
    reduce (fileWorld chainFile) chainNfa 1 (95 / 100) 1 true = .error .assertion ∧
      (collapse chainNfa [(2, 1), (3, 1)]).state_count = 4 ∧
      rescale 1 6 4 = .num (3 / 2) ∧
      ∀ (w : World) (nfa : Nfa) (old_cnt : Nat) (sf : StdMap Nat) (pct : ℚ) (merged : Nat),
        0 < pct → pct ≤ 1 → nfa.state_count ≤ old_cnt →
        (nfa.state_count : ℚ) < pct * (old_cnt : ℚ) →
        reduceTail w nfa old_cnt sf pct merged = .error .assertion := by
  refine ⟨?_, rfl, ?_, ?_⟩
  · unfold reduce
    simp only [Bool.true_or, if_true, read_chainFile]
    have hm : mergeCall (fileWorld chainFile) chainNfa chainFreq (95 / 100) =
        .ok (collapse chainNfa [(2, 1), (3, 1)], 2) := by
      unfold mergeCall
      rw [merge_chain_eval]
      rfl
    simp only [Nat.lt_one_iff, gt_iff_lt, Nat.zero_lt_one, if_true, hm]
    apply reduceTail_ratio_above_one
    · norm_num
    · decide
    · have h4 : (collapse chainNfa [(2, 1), (3, 1)]).state_count = 4 := rfl
      have h6 : chainNfa.state_count = 6 := rfl
      rw [h4, h6]
      norm_num
  · rw [rescale_eq 1 6 4 (by norm_num)]
    congr 1
    norm_num
  · intro w nfa old_cnt sf pct merged h0 _ hle hgt
    exact reduceTail_ratio_above_one w nfa old_cnt sf pct merged h0 hle hgt

end Reduction
